import Mathlib

/-!
# Live Results Dashboard backend — verification development

Shallow embedding of the backend core (`backend/src/app.py`): the time
codec (`_parse_seconds`, `_format_time`, `_time_diff`), the state
processor (`_process`), the diff engine (`_diff`) and the subscriber
broadcaster (`ConnectionManager.broadcast`), together with theorems about
the claims of the specification.

Modelling conventions:
* Python dicts (insertion ordered) are association lists; dict assignment
  replaces the value in place when the key exists and appends otherwise.
* Python exceptions (failed `int`/`float` conversions, out-of-range list
  indexing) are modelled with `Option`: a raised exception is `none`.
* Python floats are modelled as exact fractions (`PyFloat`, with a view
  `PyFloat.toRat` into ℚ); `f"{x:.3f}"` formatting uses round-half-even
  at three decimals.
* Python's stable `sort` is modelled with `List.insertionSort`, which is
  stable and sorted for a total preorder, hence produces the same list.
-/

/-- Digits of a numeral folded into a natural number (the value that
Python's `int`/`float` assigns to a digit string). -/
def natOfDigits (l : List Char) : Nat :=
  l.foldl (fun a c => a * 10 + (c.toNat - '0'.toNat)) 0

/-- Python `int(s)` restricted to plain digit strings: `none` models the
`ValueError` raised on anything else. -/
def parseNatChars (l : List Char) : Option Nat :=
  if l ≠ [] ∧ l.all Char.isDigit then some (natOfDigits l) else none

/-- A Python float modelled as an exact fraction (numerator over positive
denominator, not necessarily reduced).  Kept unreduced so that every
operation is plain integer arithmetic the kernel can evaluate. -/
structure PyFloat where
  num : Int
  den : Int
  deriving DecidableEq

/-- The rational value of a modelled float (specification-level view). -/
def PyFloat.toRat (q : PyFloat) : ℚ := (q.num : ℚ) / (q.den : ℚ)

/-- Exact sum of two modelled floats. -/
def PyFloat.add (p q : PyFloat) : PyFloat := ⟨p.num * q.den + q.num * p.den, p.den * q.den⟩

/-- Exact difference of two modelled floats. -/
def PyFloat.sub (p q : PyFloat) : PyFloat := ⟨p.num * q.den - q.num * p.den, p.den * q.den⟩

/-- Absolute value of a modelled float. -/
def PyFloat.abs (p : PyFloat) : PyFloat := ⟨|p.num|, p.den⟩

/-- Comparison `p ≤ q` of modelled floats (valid for positive denominators,
which hold for every float this model constructs). -/
def PyFloat.le (p q : PyFloat) : Bool := p.num * q.den ≤ q.num * p.den

/-- Embed an integer. -/
def PyFloat.ofInt (n : Int) : PyFloat := ⟨n, 1⟩

/-- Python `float(s)` restricted to plain decimal strings
(`digits`, `digits.digits`, `.digits`, `digits.`): `none` models the
`ValueError` raised on anything else.  The value is exact. -/
def parseDecChars (l : List Char) : Option PyFloat :=
  let ip := l.takeWhile Char.isDigit
  match l.dropWhile Char.isDigit with
  | [] => if ip = [] then none else some (PyFloat.ofInt (natOfDigits ip))
  | '.' :: fp =>
      if fp.all Char.isDigit ∧ (ip ≠ [] ∨ fp ≠ []) then
        some ⟨(natOfDigits ip : Int) * (10 : Int) ^ fp.length + (natOfDigits fp : Int),
              (10 : Int) ^ fp.length⟩
      else none
  | _ => none

/-- Python `s.split(sep)` for a single-character separator (never returns
an empty list; `"".split(c) = [""]`). -/
def splitOnChar (sep : Char) : List Char → List (List Char)
  | [] => [[]]
  | x :: xs =>
      let r := splitOnChar sep xs
      if x = sep then [] :: r
      else
        match r with
        | y :: ys => (x :: y) :: ys
        | [] => [[x]]

/-- Python `sep.join(parts)` for the `":"` separator, at character level. -/
def joinCols : List (List Char) → List Char
  | [] => []
  | [p] => p
  | p :: ps => p ++ ':' :: joinCols ps

/-- Split a string at its first `'.'`: `part.find(".")` followed by the
slices `part[:dot]` and `part[dot+1:]`; `none` when there is no dot. -/
def splitDot : List Char → Option (List Char × List Char)
  | [] => none
  | c :: cs =>
      if c = '.' then some ([], cs)
      else (splitDot cs).map (fun p => (c :: p.1, p.2))

/-- Python `s.lstrip("0")`. -/
def lstrip0 (l : List Char) : List Char := l.dropWhile (fun c => c = '0')

/-- Python `s or "0"` on a string: replace the empty string by `"0"`. -/
def orZero (l : List Char) : List Char := if l = [] then ['0'] else l

/-- The `is_last` branch of the loop in `_format_time`: truncate the
fractional part to three digits and, if no nonzero group was seen yet,
strip leading zeros of the integer part (collapsing to `"0"`). -/
def formatLast (found : Bool) (part : List Char) : List Char :=
  match splitDot part with
  | some (ip, dec) =>
      (if found then ip else orZero (lstrip0 ip)) ++ '.' :: dec.take 3
  | none => if found then part else orZero (lstrip0 part)

/-- The loop of `_format_time` over the colon-separated groups, carrying
the `found_nonzero` flag; produces the list of output groups.  A non-last
group is parsed with `int` (exception = `none`), skipped while all groups
so far were zero, and re-rendered as `str(num)` otherwise. -/
def formatParts (found : Bool) : List (List Char) → Option (List (List Char))
  | [] => some []
  | [p] => some [formatLast found p]
  | p :: ps => do
      let n ← parseNatChars p
      if found = false ∧ n = 0 then formatParts found ps
      else do
        let rest ← formatParts true ps
        pure ((toString n).data :: rest)

/-- `_format_time` from `app.py`: strip leading zeros, truncate to 3
decimal places.  `none` models a raised exception (malformed input). -/
def _format_time (t : String) : Option String :=
  if t.data = [] then some ""
  else (formatParts false (splitOnChar ':' t.data)).map (fun ps => String.mk (joinCols ps))

/-- `_parse_seconds` from `app.py`: `H:MM:SS[.fff]`, `M:SS[.fff]` or bare
seconds; empty input yields `0`.  `none` models a raised exception. -/
def _parse_seconds (t : String) : Option PyFloat :=
  if t.data = [] then some (PyFloat.ofInt 0)
  else
    match splitOnChar ':' t.data with
    | [a, b, c] => do
        let h ← parseNatChars a
        let m ← parseNatChars b
        let s ← parseDecChars c
        pure ((PyFloat.ofInt ((h : Int) * 3600 + (m : Int) * 60)).add s)
    | [a, b] => do
        let m ← parseNatChars a
        let s ← parseDecChars b
        pure ((PyFloat.ofInt ((m : Int) * 60)).add s)
    | a :: _ => parseDecChars a
    | [] => none

/-- `_time_diff` from `app.py`: `9999.0` when either string is empty,
otherwise the absolute difference of the parsed values. -/
def _time_diff (a b : String) : Option PyFloat :=
  if a = "" ∨ b = "" then some (PyFloat.ofInt 9999)
  else do
    let pa ← _parse_seconds a
    let pb ← _parse_seconds b
    pure (pa.sub pb).abs

/-- Round `q * 1000` to the nearest integer, ties to even — the rounding
Python's `f"{x:.3f}"` applies at three decimal places. -/
def PyFloat.round3 (q : PyFloat) : Int :=
  let n := q.num * 1000
  let fl := Int.fdiv n q.den
  let r := n - fl * q.den
  if 2 * r < q.den then fl
  else if q.den < 2 * r then fl + 1
  else if fl % 2 = 0 then fl else fl + 1

/-- Left-pad a numeral to three characters with zeros. -/
def pad3 (s : String) : String :=
  if s.length < 3 then String.mk (List.replicate (3 - s.length) '0') ++ s else s

/-- Python `f"{x:.3f}"` for a nonnegative modelled float. -/
def fmt3 (q : PyFloat) : String :=
  let n := q.round3
  toString (n / 1000) ++ "." ++ pad3 (toString (n % 1000))

/-- The gap rendering `f"+{diff:.3f}s"` used by the state processor. -/
def gapStr (d : PyFloat) : String := "+" ++ fmt3 d ++ "s"

/-- Python `\s` (ASCII whitespace). -/
def isSpaceChar (c : Char) : Bool :=
  c = ' ' || c = '\t' || c = '\n' || c = '\r' || c = '\x0b' || c = '\x0c'

/-- Python `\w` (ASCII word character). -/
def isWordChar (c : Char) : Bool := c.isAlphanum || c = '_'

/-- Whether the case-insensitive alternation `laps?|ronden?|rondes?`
matches at the start of `l` (equivalently: `lap` or `ronde` is a prefix). -/
def lapsKeywordAt (l : List Char) : Bool :=
  ['l', 'a', 'p'].isPrefixOf (l.map Char.toLower) ||
  ['r', 'o', 'n', 'd', 'e'].isPrefixOf (l.map Char.toLower)

/-- Whether the case-insensitive alternation `m\b|meter` matches at the
start of `l`. -/
def metersKeywordAt : List Char → Bool
  | [] => false
  | c :: rest =>
      (c.toLower = 'm' && (match rest with | [] => true | d :: _ => !isWordChar d)) ||
      ['m', 'e', 't', 'e', 'r'].isPrefixOf ((c :: rest).map Char.toLower)

/-- Leftmost match of `(\d+)\s*KEYWORD` over a character list, returning
the integer value of the digit group (the search both extraction regexes
in `_process` perform; the digit run is maximal, as backtracking cannot
succeed with a shorter run). -/
def scanTokenNum (kw : List Char → Bool) : List Char → Option Nat
  | [] => none
  | c :: rest =>
      (if (c :: rest).takeWhile Char.isDigit = [] then none
       else if kw (((c :: rest).dropWhile Char.isDigit).dropWhile isSpaceChar) then
         some (natOfDigits ((c :: rest).takeWhile Char.isDigit))
       else none) <|>
      scanTokenNum kw rest

/-- `re.search(r"(\d+)\s*(?:laps?|ronden?|rondes?)", name, re.IGNORECASE)`
returning `int(m.group(1))`. -/
def findLapsCount (s : String) : Option Nat := scanTokenNum lapsKeywordAt s.data

/-- `re.search(r"(\d+)\s*(?:m\b|meter)", name, re.IGNORECASE)` returning
`int(m.group(1))`. -/
def findMeters (s : String) : Option Nat := scanTokenNum metersKeywordAt s.data


/-! ## Raw payload schema (ingestion boundary)

Fields read with `d.get(key, default)` in the source are `Option`-typed
here and defaulted at the point of use, exactly as the code does; fields
read with `d[key]` are required. -/

/-- One lap of a raw race: `{"time": str}`. -/
structure RawLap where
  time : String
  deriving DecidableEq

/-- The competitor record of a raw race: `race["competitor"]`. -/
structure RawCompetitor where
  startNumber : String
  name : String
  deriving DecidableEq

/-- One raw race: id, heat, competitor, optional lane, optional laps. -/
structure RawRace where
  id : String
  heat : Int
  competitor : RawCompetitor
  lane : Option String
  laps : Option (List RawLap)
  deriving DecidableEq

/-- One raw distance: id, display name, optional race list and metadata. -/
structure RawDistance where
  id : String
  name : String
  races : Option (List RawRace)
  eventNumber : Option Int
  isLive : Option Bool
  deriving DecidableEq

/-- The raw payload: optional event name, optional distance list. -/
structure RawPayload where
  name : Option String
  distances : Option (List RawDistance)
  deriving DecidableEq

/-! ## Processed data model -/

/-- One processed competitor update (the per-race dict `_process` builds). -/
structure CompetitorEntry where
  id : String
  distance_id : String
  start_number : String
  name : String
  heat : Int
  lane : String
  laps_count : Nat
  total_time : String
  formatted_total_time : String
  position : Nat
  position_change : Option Int
  gap_to_above : Option String
  laps_remaining : Option Nat
  is_final_lap : Bool
  finished_rank : Option Nat
  group_number : Option Nat
  deriving DecidableEq

/-- One standings group of a mass-start distance. -/
structure StandingsGroup where
  group_number : Nat
  laps : Nat
  leader_time : Option String
  gap_to_group_ahead : Option String
  time_behind_leader : Option String
  is_last_group : Bool
  race_ids : List String
  deriving DecidableEq

/-- One heat group of a lane-race distance. -/
structure HeatGroup where
  heat : Int
  race_ids : List String
  deriving DecidableEq

/-- The distance metadata record `_process` emits per distance. -/
structure DistanceMeta where
  id : String
  name : String
  event_number : Int
  is_live : Bool
  is_mass_start : Bool
  distance_meters : Option Nat
  total_laps : Option Nat
  any_finished : Bool
  finishing_line_after : Option String
  standings_groups : List StandingsGroup
  heat_groups : List HeatGroup
  deriving DecidableEq

/-- The full processed state (Python dicts as ordered association lists). -/
structure ProcessedState where
  name : String
  distances : List (String × DistanceMeta)
  competitors : List (String × List (String × CompetitorEntry))
  deriving DecidableEq

/-! ## Ordered dictionaries -/

/-- Python `d.get(k)` on an ordered dict. -/
def dictGet {α : Type} : List (String × α) → String → Option α
  | [], _ => none
  | p :: ps, k => if p.1 = k then some p.2 else dictGet ps k

/-- Python `d[k] = v` on an ordered dict: replace in place if the key
exists, append otherwise. -/
def dictInsert {α : Type} : List (String × α) → String → α → List (String × α)
  | [], k, v => [(k, v)]
  | p :: ps, k, v => if p.1 = k then (k, v) :: ps else p :: dictInsert ps k v

/-- Build a dict by consecutive assignments (a Python dict comprehension). -/
def dictOf {α : Type} (l : List (String × α)) : List (String × α) :=
  l.foldl (fun m p => dictInsert m p.1 p.2) []

/-! ## State processor (`_process`) -/

/-- Sequential processing with exception propagation (a Python `for` loop
whose body may raise). -/
def seqMap {α β : Type} (f : α → Option β) : List α → Option (List β)
  | [] => some []
  | a :: l => do
      let b ← f a
      let bs ← seqMap f l
      pure (b :: bs)

/-- `dist.get("races", [])`. -/
def distRaces (dist : RawDistance) : List RawRace := dist.races.getD []

/-- Mass-start classification: more than two races, all in the same heat
(`len(races) > 2 and len({r["heat"] for r in races}) == 1`). -/
def isMassStart (races : List RawRace) : Bool :=
  decide (2 < races.length) && decide ((races.map (fun r => r.heat)).dedup.length = 1)

/-- Lexicographic string comparison by code points, the comparison Python
applies to strings (and the order of Lean's `String` instances, in an
explicitly computable form). -/
def strListLe : List Char → List Char → Bool
  | [], _ => true
  | _ :: _, [] => false
  | a :: as, b :: bs => if a = b then strListLe as bs else decide (a < b)

/-- String comparison `a <= b` as Python evaluates it. -/
def pyStrLe (a b : String) : Bool := strListLe a.data b.data

/-- The sort key for laps: ascending cumulative-time string
(`sorted(laps, key=lambda l: l["time"])`). -/
def lapLE (a b : RawLap) : Prop := pyStrLe a.time b.time = true

instance : DecidableRel lapLE := fun a b => by unfold lapLE; infer_instance

/-- The cumulative time of the lap with the maximum recorded time string:
last element of the stable ascending sort. -/
def lapMaxTime (laps : List RawLap) : String :=
  match (List.insertionSort lapLE laps).getLast? with
  | some l => l.time
  | none => ""

/-- Base processing of one race (the first per-competitor loop of
`_process`): warm-up removal for mass starts, total time selection, time
formatting, lane defaulting and the initial field values. -/
def processRace (ims : Bool) (distId : String) (race : RawRace) : Option CompetitorEntry := do
  let laps0 := race.laps.getD []
  let laps := if ims ∧ laps0 ≠ [] then laps0.tail else laps0
  let tf ← if laps = [] then some ("", "No Time")
           else do
             let tt := lapMaxTime laps
             let ftt ← _format_time tt
             pure (tt, ftt)
  let lane := if ims then "black"
              else match race.lane with
                   | some l => if l = "" then "black" else l
                   | none => "black"
  pure { id := race.id
         distance_id := distId
         start_number := race.competitor.startNumber
         name := race.competitor.name
         heat := race.heat
         lane := lane
         laps_count := laps.length
         total_time := tf.1
         formatted_total_time := tf.2
         position := 0
         position_change := none
         gap_to_above := none
         laps_remaining := none
         is_final_lap := false
         finished_rank := none
         group_number := none }

/-- The sort key of the ranking step: the time string, with the empty
string replaced by the sentinel (`r["total_time"] or "99:99:99"`). -/
def rankKeyTime (r : CompetitorEntry) : String :=
  if r.total_time = "" then "99:99:99" else r.total_time

/-- The ranking order: descending laps count, then ascending key time
(the Python key tuple `(-laps_count, total_time or "99:99:99")`). -/
def rankLE (a b : CompetitorEntry) : Prop :=
  b.laps_count < a.laps_count ∨
    (a.laps_count = b.laps_count ∧ pyStrLe (rankKeyTime a) (rankKeyTime b) = true)

instance : DecidableRel rankLE := fun a b => by unfold rankLE; infer_instance

/-- Assignment of 1-based positions in ranked order
(`for i, r in enumerate(processed): r["position"] = i + 1`). -/
def posAssign (k : Nat) : List CompetitorEntry → List CompetitorEntry
  | [] => []
  | r :: rs => { r with position := k } :: posAssign (k + 1) rs

/-- The mass-start progression loop: `laps_remaining`, `is_final_lap` and
sequential `finished_rank` allocation in ranked order. -/
def assignFinish (totalLaps : Nat) (rank : Nat) : List CompetitorEntry → List CompetitorEntry
  | [] => []
  | r :: rs =>
      let lr := ((totalLaps : Int) - (r.laps_count : Int)).toNat
      let r' := { r with laps_remaining := some lr, is_final_lap := decide (lr = 1) }
      if lr = 0 then { r' with finished_rank := some rank } :: assignFinish totalLaps (rank + 1) rs
      else r' :: assignFinish totalLaps rank rs

/-- The filter selecting competitors eligible for standings grouping:
no finished rank and a recorded total time. -/
def unfinPred (r : CompetitorEntry) : Bool :=
  decide (r.finished_rank = none ∧ r.total_time ≠ "")

/-- `[r for r in processed if r["finished_rank"] is None and r["total_time"]]`. -/
def unfinishedOf (l : List CompetitorEntry) : List CompetitorEntry := l.filter unfinPred

/-- Last member's total time of the current group (`cur["races"][-1]`). -/
def lastTotalTime (l : List CompetitorEntry) : String :=
  match l.getLast? with
  | some r => r.total_time
  | none => ""

/-- The grouping loop of `_process` with a current group being extended:
append when the lap count matches and the gap to the most recent member
is at most two seconds, otherwise start a new group. -/
def buildGroupsAux (cur : Nat × List CompetitorEntry) :
    List CompetitorEntry → Option (List (Nat × List CompetitorEntry))
  | [] => some [cur]
  | r :: rs =>
      if r.laps_count = cur.1 then do
        let d ← _time_diff (lastTotalTime cur.2) r.total_time
        if d.le (PyFloat.ofInt 2) then buildGroupsAux (cur.1, cur.2 ++ [r]) rs
        else do
          let rest ← buildGroupsAux (r.laps_count, [r]) rs
          pure (cur :: rest)
      else do
        let rest ← buildGroupsAux (r.laps_count, [r]) rs
        pure (cur :: rest)

/-- The standings grouping of the unfinished, timed competitors. -/
def buildGroups : List CompetitorEntry → Option (List (Nat × List CompetitorEntry))
  | [] => some []
  | r :: rs => buildGroupsAux (r.laps_count, [r]) rs

/-- Gap assignment for the members of one group after its first: each gets
the group number and the formatted gap to the immediately preceding
member. -/
def setGapsAux (gnum : Nat) (prev : CompetitorEntry) :
    List CompetitorEntry → Option (List CompetitorEntry)
  | [] => some []
  | r :: rs => do
      let d ← _time_diff prev.total_time r.total_time
      let r' := { r with group_number := some gnum, gap_to_above := some (gapStr d) }
      let rest ← setGapsAux gnum r' rs
      pure (r' :: rest)

/-- Per-group member update: the first member gets only the group number,
later members also `gap_to_above`. -/
def setGaps (gnum : Nat) : List CompetitorEntry → Option (List CompetitorEntry)
  | [] => some []
  | r :: rs => do
      let r' := { r with group_number := some gnum }
      let rest ← setGapsAux gnum r' rs
      pure (r' :: rest)

/-- Member updates for all groups, numbered from `gnum` upwards, returned
as one flat list (in group order, i.e. in the order of the unfinished
list). -/
def applyGroupUpdates (gnum : Nat) : List (Nat × List CompetitorEntry) → Option (List CompetitorEntry)
  | [] => some []
  | g :: gs => do
      let u ← setGaps gnum g.2
      let rest ← applyGroupUpdates (gnum + 1) gs
      pure (u ++ rest)

/-- The in-place mutation of the grouped entries, reflected back into the
ranked list: entries satisfying the grouping filter are replaced, in
order, by their updated versions; all others are untouched. -/
def mergeUpdated : List CompetitorEntry → List CompetitorEntry → List CompetitorEntry
  | [], _ => []
  | r :: rs, us =>
      if unfinPred r then
        match us with
        | u :: us' => u :: mergeUpdated rs us'
        | [] => r :: mergeUpdated rs []
      else r :: mergeUpdated rs us

/-- The standings-group records for the groups after the first, carrying
the previous group along (`groups[gi - 1]`): gap to the group ahead and
time behind the leader. -/
def standingsAux (leaderT : Option String) (gnum : Nat) (prevG : Nat × List CompetitorEntry) :
    List (Nat × List CompetitorEntry) → Option (List StandingsGroup)
  | [] => some []
  | g :: gs => do
      let first ← g.2.head?
      let prevLast ← prevG.2.getLast?
      let gapAhead ← if prevLast.total_time ≠ "" ∧ first.total_time ≠ "" then do
          let d ← _time_diff prevLast.total_time first.total_time
          pure (some (gapStr d))
        else pure none
      let behind ← if leaderT.getD "" ≠ "" ∧ first.total_time ≠ "" then do
          let d ← _time_diff (leaderT.getD "") first.total_time
          pure (some (gapStr d))
        else pure none
      let rest ← standingsAux leaderT (gnum + 1) g gs
      pure ({ group_number := gnum
              laps := g.1
              leader_time := if first.total_time ≠ "" then some first.formatted_total_time else none
              gap_to_group_ahead := gapAhead
              time_behind_leader := behind
              is_last_group := false
              race_ids := g.2.map (fun r => r.id) } :: rest)

/-- The standings-group records (first group has no gaps; `leader_time`
is the overall first member's total time when it exists). -/
def standingsOf : List (Nat × List CompetitorEntry) → Option (List StandingsGroup)
  | [] => some []
  | g0 :: rest => do
      let leaderT : Option String := match g0.2 with
        | r :: _ => some r.total_time
        | [] => none
      let first0 ← g0.2.head?
      let rest' ← standingsAux leaderT 2 g0 rest
      pure ({ group_number := 1
              laps := g0.1
              leader_time := if first0.total_time ≠ "" then some first0.formatted_total_time else none
              gap_to_group_ahead := none
              time_behind_leader := none
              is_last_group := false
              race_ids := g0.2.map (fun r => r.id) } :: rest')

/-- `standings_groups[-1]["is_last_group"] = True`. -/
def markLast : List StandingsGroup → List StandingsGroup
  | [] => []
  | [g] => [{ g with is_last_group := true }]
  | g :: gs => g :: markLast gs

/-- The whole mass-start block of `_process` (progression, grouping,
member updates, standings records), returning the updated ranked list,
the standings groups and the `any_finished` flag. -/
def massUpdate (totalLaps : Nat) (processed : List CompetitorEntry) :
    Option (List CompetitorEntry × List StandingsGroup × Bool) := do
  let s2 := assignFinish totalLaps 1 processed
  let anyF := s2.any (fun r => r.finished_rank.isSome)
  let groups ← buildGroups (unfinishedOf s2)
  let upd ← applyGroupUpdates 1 groups
  let sgs ← standingsOf groups
  pure (mergeUpdated s2 upd, markLast sgs, anyF)

/-- The guarded mass-start block: run `massUpdate` when the distance is a
mass start with a truthy (nonzero) extracted lap count, otherwise leave
the ranked list untouched with no standings and nothing finished
(`if is_mass_start and total_laps:`). -/
def massResult (ims : Bool) (totalLaps : Option Nat) (processed : List CompetitorEntry) :
    Option (List CompetitorEntry × List StandingsGroup × Bool) :=
  if ims ∧ totalLaps.getD 0 ≠ 0 then massUpdate (totalLaps.getD 0) processed
  else pure (processed, [], false)

/-- Heat grouping for lane races: partition by heat preserving ranked
order, heats emitted in ascending heat order. -/
def heatGroupsOf (l : List CompetitorEntry) : List HeatGroup :=
  let heats := (l.map (fun r => r.heat)).dedup
  (List.insertionSort (fun a b : Int => a ≤ b) heats).map
    (fun h => { heat := h, race_ids := (l.filter (fun r => decide (r.heat = h))).map (fun r => r.id) })

/-- Processing of one raw distance: classification, metadata extraction,
base processing, ranking, mass-start block or heat grouping, and the
(meta, competitor dict) pair stored by `_process`. -/
def processDistance (dist : RawDistance) : Option (DistanceMeta × List (String × CompetitorEntry)) := do
  let races := distRaces dist
  let ims := isMassStart races
  let total_laps := if ims then findLapsCount dist.name else none
  let distance_meters := if ims then none else findMeters dist.name
  let base ← seqMap (processRace ims dist.id) races
  let processed := posAssign 1 (List.insertionSort rankLE base)
  let with_time := processed.filter (fun r => decide (r.total_time ≠ ""))
  let fla := with_time.getLast?.map (fun r => r.id)
  let res ← massResult ims total_laps processed
  let hgs := if ims then [] else heatGroupsOf processed
  pure ({ id := dist.id
          name := dist.name
          event_number := dist.eventNumber.getD 0
          is_live := dist.isLive.getD false
          is_mass_start := ims
          distance_meters := distance_meters
          total_laps := total_laps
          any_finished := res.2.2
          finishing_line_after := fla
          standings_groups := res.2.1
          heat_groups := hgs },
        dictOf (res.1.map (fun r => (r.id, r))))

/-- `_process` from `app.py`: the full state processor. -/
def _process (raw : RawPayload) : Option ProcessedState := do
  let triples ← seqMap (fun d => (processDistance d).map (fun p => (d.id, p))) (raw.distances.getD [])
  pure { name := raw.name.getD ""
         distances := triples.foldl (fun m p => dictInsert m p.1 p.2.1) []
         competitors := triples.foldl (fun m p => dictInsert m p.1 p.2.2) [] }

/-! ## Diff engine (`_diff`) -/

/-- The inner loop of `_diff`: competitor updates of one distance, in
current arrival order, keeping exactly the entries whose value differs
from the previous snapshot's entry for the same id. -/
def diffComps (pdc : List (String × CompetitorEntry)) :
    List (String × CompetitorEntry) → List CompetitorEntry
  | [] => []
  | q :: qs =>
      if dictGet pdc q.1 ≠ some q.2 then q.2 :: diffComps pdc qs
      else diffComps pdc qs

/-- The outer loop of `_diff` over the current distances. -/
def diffAux (prevDists : List (String × DistanceMeta))
    (prevComps currComps : List (String × List (String × CompetitorEntry))) :
    List (String × DistanceMeta) → List DistanceMeta × List CompetitorEntry
  | [] => ([], [])
  | p :: ps =>
      let rest := diffAux prevDists prevComps currComps ps
      ((if dictGet prevDists p.1 ≠ some p.2 then p.2 :: rest.1 else rest.1),
       diffComps ((dictGet prevComps p.1).getD []) ((dictGet currComps p.1).getD []) ++ rest.2)

/-- `_diff` from `app.py`: changed distance metas and changed competitor
updates, in current-state order. -/
def _diff (prev : Option ProcessedState) (curr : ProcessedState) :
    List DistanceMeta × List CompetitorEntry :=
  let prevDists := match prev with | some p => p.distances | none => []
  let prevComps := match prev with | some p => p.competitors | none => []
  diffAux prevDists prevComps curr.competitors curr.distances

/-! ## Subscriber broadcaster (`ConnectionManager.broadcast`) -/

/-- Result of one `broadcast` call: the subscribers that received the
message, the failed ones, and the registry afterwards. -/
structure BroadcastResult (α : Type) where
  delivered : List α
  dead : List α
  active : List α
  deriving DecidableEq

/-- `ConnectionManager.broadcast`: iterate over a snapshot of the
registry taken at call start, attempt each delivery independently
(`sendOk` tells whether a subscriber's send succeeds), collect failures,
then evict each failed subscriber (`disconnect` filters by identity). -/
def broadcast {α : Type} [DecidableEq α] (active : List α) (sendOk : α → Bool) :
    BroadcastResult α :=
  let attempts := active.foldl
    (fun acc ws => if sendOk ws then (acc.1 ++ [ws], acc.2) else (acc.1, acc.2 ++ [ws]))
    ([], [])
  { delivered := attempts.1
    dead := attempts.2
    active := attempts.2.foldl (fun act ws => act.filter (fun c => decide (c ≠ ws))) active }

/-! ## Concrete payloads used by witnesses and counterexamples -/

/-- A lane-race payload: one 500 m distance, one competitor, no laps. -/
def rawLane (competitorName : String) : RawPayload :=
  { name := some "Event"
    distances := some [{ id := "d1", name := "500m", eventNumber := some 3, isLive := some true
                         races := some [{ id := "r1", heat := 1, lane := some "red"
                                          competitor := { startNumber := "7", name := competitorName }
                                          laps := none }] }] }

/-- A mass-start distance: three competitors in one heat, three laps
total, with one recorded lap each (after the warm-up) at 10.0 s, 10.5 s
and 13.0 s. -/
def dMass : RawDistance :=
  { id := "d1", name := "Mass start 3 laps", eventNumber := none, isLive := none
    races := some
      [{ id := "r1", heat := 4, lane := none
         competitor := { startNumber := "1", name := "A" }
         laps := some [{ time := "00:00:05" }, { time := "10.0" }] },
       { id := "r2", heat := 4, lane := none
         competitor := { startNumber := "2", name := "B" }
         laps := some [{ time := "00:00:06" }, { time := "10.5" }] },
       { id := "r3", heat := 4, lane := none
         competitor := { startNumber := "3", name := "C" }
         laps := some [{ time := "00:00:07" }, { time := "13.0" }] }] }

/-- A mass-start payload holding just `dMass`. -/
def rawMass : RawPayload := { name := some "Event", distances := some [dMass] }

/-- A default (empty) processed state, used to name the concrete output
of `_process` on the payloads above. -/
def emptyState : ProcessedState := { name := "", distances := [], competitors := [] }

/-- A minimal raw race with a given id and heat (no lane, no laps). -/
def mkRace (i : String) (h : Int) : RawRace :=
  { id := i, heat := h, competitor := { startNumber := "1", name := "X" }, lane := none, laps := none }

/-- A distance with the given races (concrete classification inputs). -/
def mkDist (rs : List RawRace) : RawDistance :=
  { id := "d", name := "test", races := some rs, eventNumber := none, isLive := none }

/-- Three races in one heat (mass start). -/
def dSameHeat3 : RawDistance := mkDist [mkRace "a" 5, mkRace "b" 5, mkRace "c" 5]

/-- Two races in two heats (not a mass start). -/
def dTwoHeats : RawDistance := mkDist [mkRace "a" 1, mkRace "b" 2]

/-- Three races in three distinct heats (not a mass start). -/
def dThreeHeats : RawDistance := mkDist [mkRace "a" 1, mkRace "b" 2, mkRace "c" 3]

/-- A default distance meta (used only to name concrete outputs). -/
def emptyMeta : DistanceMeta :=
  { id := "", name := "", event_number := 0, is_live := false, is_mass_start := false
    distance_meters := none, total_laps := none, any_finished := false
    finishing_line_after := none, standings_groups := [], heat_groups := [] }

/-- A default competitor entry (used only to name concrete outputs). -/
def emptyEntry : CompetitorEntry :=
  { id := "", distance_id := "", start_number := "", name := "", heat := 0, lane := ""
    laps_count := 0, total_time := "", formatted_total_time := "", position := 0
    position_change := none, gap_to_above := none, laps_remaining := none
    is_final_lap := false, finished_rank := none, group_number := none }

/-- A one-lap mass-start entry at 10.0 seconds (grouping witness). -/
def entryA : CompetitorEntry := { emptyEntry with laps_count := 1, total_time := "10.0" }

/-- A one-lap mass-start entry at 13.0 seconds (grouping witness). -/
def entryB : CompetitorEntry := { emptyEntry with laps_count := 1, total_time := "13.0" }

/-- The fields of a competitor entry that the mass-start block never
mutates after ranking (it only writes `laps_remaining`, `is_final_lap`,
`finished_rank`, `group_number` and `gap_to_above`).  Equality of the
`core` projections is how the later pipeline stages are related to the
ranked list. -/
structure CoreView where
  id : String
  laps_count : Nat
  total_time : String
  formatted_total_time : String
  position : Nat
  position_change : Option Int
  deriving DecidableEq

/-- Projection of a competitor entry onto its immutable core. -/
def core (r : CompetitorEntry) : CoreView :=
  { id := r.id, laps_count := r.laps_count, total_time := r.total_time
    formatted_total_time := r.formatted_total_time, position := r.position
    position_change := r.position_change }

/-- The append condition of the grouping loop exactly as the code tests
it: same lap count as the previous member, and the computed gap at most
two seconds under the executable comparison. -/
def clusterOkB (a b : CompetitorEntry) : Prop :=
  b.laps_count = a.laps_count ∧
  ∃ d, _time_diff a.total_time b.total_time = some d ∧ d.le (PyFloat.ofInt 2) = true

/-- The append condition of the grouping loop, stated on rational values:
same lap count as the previous member and a time gap of at most 2.0
seconds (a new cluster starts exactly when this fails). -/
def clusterOk (a b : CompetitorEntry) : Prop :=
  b.laps_count = a.laps_count ∧
  ∃ d, _time_diff a.total_time b.total_time = some d ∧ d.toRat ≤ 2

/-! ## Order properties of the string comparison -/

/-- `strListLe` is total. -/
theorem strListLe_total (x y : List Char) : strListLe x y = true ∨ strListLe y x = true := by
  induction x generalizing y with
  | nil => exact Or.inl rfl
  | cons c cs ih =>
    cases y with
    | nil => exact Or.inr rfl
    | cons d ds =>
      by_cases hcd : c = d
      · subst hcd
        rcases ih ds with h | h
        · exact Or.inl (by simp [strListLe, h])
        · exact Or.inr (by simp [strListLe, h])
      · rcases lt_or_gt_of_ne (show c ≠ d from hcd) with h | h
        · exact Or.inl (by simp [strListLe, hcd, h])
        · exact Or.inr (by simp [strListLe, Ne.symm hcd, h])

/-- `strListLe` is transitive. -/
theorem strListLe_trans {x y z : List Char}
    (hxy : strListLe x y = true) (hyz : strListLe y z = true) : strListLe x z = true := by
  induction x generalizing y z with
  | nil => rfl
  | cons c cs ih =>
    cases y with
    | nil => simp [strListLe] at hxy
    | cons d ds =>
      cases z with
      | nil => simp [strListLe] at hyz
      | cons e es =>
        simp only [strListLe] at hxy hyz ⊢
        by_cases hcd : c = d
        · subst hcd
          by_cases hde : c = e
          · subst hde
            simp only [if_pos rfl] at hxy hyz ⊢
            exact ih hxy hyz
          · simp only [if_pos rfl] at hxy
            simp only [if_neg hde] at hyz ⊢
            exact hyz
        · by_cases hde : d = e
          · subst hde
            simp only [if_neg hcd] at hxy ⊢
            exact hxy
          · simp only [if_neg hcd] at hxy
            simp only [if_neg hde] at hyz
            have hce : c < e := lt_trans (of_decide_eq_true hxy) (of_decide_eq_true hyz)
            have hne : c ≠ e := ne_of_lt hce
            simp [if_neg hne, hce]

/-- Unfolding equation of `strListLe` on two nonempty lists. -/
theorem strListLe_cons_cons (c d : Char) (cs ds : List Char) :
    strListLe (c :: cs) (d :: ds) = if c = d then strListLe cs ds else decide (c < d) := rfl

/-- `strListLe` coincides with the lexicographic order relation. -/
theorem strListLe_iff_lex {x y : List Char} :
    strListLe x y = true ↔ (List.Lex (· < ·) x y ∨ x = y) := by
  induction x generalizing y with
  | nil =>
    cases y with
    | nil => simp [strListLe]
    | cons d ds => simp [strListLe, List.Lex.nil]
  | cons c cs ih =>
    cases y with
    | nil =>
      constructor
      · intro h; simp [strListLe] at h
      · rintro (h | h)
        · cases h
        · cases h
    | cons d ds =>
      by_cases hcd : c = d
      · subst hcd
        rw [strListLe_cons_cons, if_pos rfl, ih]
        constructor
        · rintro (h | h)
          · exact Or.inl (List.Lex.cons h)
          · exact Or.inr (by rw [h])
        · rintro (h | h)
          · cases h with
            | cons h' => exact Or.inl h'
            | rel h' => exact absurd h' (lt_irrefl c)
          · exact Or.inr (by injection h)
      · rw [strListLe_cons_cons, if_neg hcd]
        constructor
        · intro h
          exact Or.inl (List.Lex.rel (of_decide_eq_true h))
        · rintro (h | h)
          · cases h with
            | cons h' => exact absurd rfl hcd
            | rel h' => exact decide_eq_true h'
          · exact absurd (by injection h) hcd

/-- `pyStrLe` is exactly Lean's linear order on `String` (and Python's
string comparison). -/
theorem pyStrLe_iff_le {a b : String} : pyStrLe a b = true ↔ a ≤ b := by
  rw [le_iff_lt_or_eq, String.lt_iff_toList_lt]
  unfold pyStrLe
  rw [strListLe_iff_lex]
  have hta : a.toList = a.data := rfl
  have htb : b.toList = b.data := rfl
  rw [hta, htb]
  constructor
  · rintro (h | h)
    · exact Or.inl h
    · exact Or.inr (String.ext h)
  · rintro (h | h)
    · exact Or.inl h
    · exact Or.inr (by rw [h])

instance : IsTotal CompetitorEntry rankLE where
  total a b := by
    unfold rankLE
    rcases Nat.lt_trichotomy a.laps_count b.laps_count with h | h | h
    · exact Or.inr (Or.inl h)
    · rcases strListLe_total (rankKeyTime a).data (rankKeyTime b).data with h' | h'
      · exact Or.inl (Or.inr ⟨h, h'⟩)
      · exact Or.inr (Or.inr ⟨h.symm, h'⟩)
    · exact Or.inl (Or.inl h)

instance : IsTrans CompetitorEntry rankLE where
  trans a b c hab hbc := by
    unfold rankLE at *
    rcases hab with h1 | ⟨h1, h1'⟩
    · rcases hbc with h2 | ⟨h2, h2'⟩
      · exact Or.inl (h2.trans h1)
      · exact Or.inl (h2 ▸ h1)
    · rcases hbc with h2 | ⟨h2, h2'⟩
      · exact Or.inl (h1 ▸ h2)
      · exact Or.inr ⟨h1.trans h2, strListLe_trans h1' h2'⟩

/-! ## Broadcaster lemmas -/

/-- The delivery loop of `broadcast` splits the snapshot into successful
and failed deliveries, in order. -/
theorem broadcast_foldl_attempts {α : Type} (ok : α → Bool) :
    ∀ (l d0 dd : List α),
      l.foldl (fun acc ws => if ok ws then (acc.1 ++ [ws], acc.2) else (acc.1, acc.2 ++ [ws])) (d0, dd) =
        (d0 ++ l.filter ok, dd ++ l.filter (fun ws => !ok ws)) := by
  intro l
  induction l with
  | nil => intro d0 dd; simp
  | cons a l ih =>
    intro d0 dd
    by_cases h : ok a = true
    · simp [List.filter_cons, h, ih]
    · have h' : ok a = false := by simpa using h
      simp [List.filter_cons, h', ih]

/-- Evicting each member of `dead` in turn filters out exactly the
members of `dead`. -/
theorem evict_foldl {α : Type} [DecidableEq α] :
    ∀ (dead act : List α),
      dead.foldl (fun act ws => act.filter (fun c => decide (c ≠ ws))) act =
        act.filter (fun c => decide (c ∉ dead)) := by
  intro dead
  induction dead with
  | nil => intro act; simp
  | cons w ws ih =>
    intro act
    rw [List.foldl_cons, ih, List.filter_filter]
    apply List.filter_congr
    intro x _
    by_cases h1 : x = w <;> by_cases h2 : x ∈ ws <;> simp [h1, h2]

/-- C8: `broadcast(message)` attempts delivery independently to a stable
snapshot of the registered subscribers taken at call start; every
subscriber whose delivery fails is evicted from the registry, and one
subscriber's failure never blocks delivery to the others (the delivered
set is exactly the successful subscribers of the snapshot, whatever the
failures).  In particular, with 3 subscribers where the 2nd fails, the
1st and 3rd still receive the message and exactly 2 subscribers remain
registered. -/
theorem broadcast_partial_failure :
    (∀ (active : List Nat) (sendOk : Nat → Bool),
      (broadcast active sendOk).delivered = active.filter sendOk ∧
      (broadcast active sendOk).dead = active.filter (fun ws => !sendOk ws) ∧
      (broadcast active sendOk).active = active.filter sendOk) ∧
    ((broadcast [10, 20, 30] (fun ws => decide (ws ≠ 20))).delivered = [10, 30] ∧
     (broadcast [10, 20, 30] (fun ws => decide (ws ≠ 20))).active = [10, 30] ∧
     (broadcast [10, 20, 30] (fun ws => decide (ws ≠ 20))).active.length = 2) := by
  refine ⟨?_, by decide, by decide, by decide⟩
  intro active sendOk
  unfold broadcast
  rw [broadcast_foldl_attempts]
  refine ⟨by simp, by simp, ?_⟩
  simp only [List.nil_append]
  rw [evict_foldl]
  apply List.filter_congr
  intro x hx
  by_cases h : sendOk x = true
  · simp [List.mem_filter, h]
  · have h' : sendOk x = false := by simpa using h
    simp [List.mem_filter, hx, h']

/-- C5: the state processor is a pure, deterministic function of its raw
payload: two runs on equal inputs produce structurally identical outputs
(in this embedding `_process` is a mathematical function, so determinism
is definitional). -/
theorem process_deterministic : ∀ raw1 raw2 : RawPayload, raw1 = raw2 → _process raw1 = _process raw2 := by
  intro raw1 raw2 h
  rw [h]

/-- Witness for `process_deterministic` at the concrete mass-start
payload. -/
theorem process_deterministic_witness : _process rawMass = _process rawMass :=
  process_deterministic rawMass rawMass rfl

/-! ## Mass-start classification -/

/-- A deduplicated list has length one exactly when the (nonempty) list
is constant. -/
theorem dedup_singleton_iff {α : Type} [DecidableEq α] {l : List α} (hne : l ≠ []) :
    l.dedup.length = 1 ↔ ∀ x ∈ l, ∀ y ∈ l, x = y := by
  constructor
  · intro h x hx y hy
    obtain ⟨a, ha⟩ := List.length_eq_one.mp h
    have hxa : x = a := by
      have hm := List.mem_dedup.mpr hx
      rw [ha] at hm
      simpa using hm
    have hya : y = a := by
      have hm := List.mem_dedup.mpr hy
      rw [ha] at hm
      simpa using hm
    rw [hxa, hya]
  · intro hall
    obtain ⟨c, cs, rfl⟩ := List.exists_cons_of_ne_nil hne
    have key : ∀ (ds : List α), (∀ y ∈ ds, y = c) → (c :: ds).dedup = [c] := by
      intro ds
      induction ds with
      | nil => intro _; simp
      | cons d ds ih =>
        intro hy
        have hdc : d = c := hy d (List.mem_cons_self d ds)
        subst hdc
        rw [List.dedup_cons_of_mem (List.mem_cons_self d ds)]
        exact ih (fun y hym => hy y (List.mem_cons_of_mem d hym))
    rw [key cs (fun y hym => hall y (List.mem_cons_of_mem c hym) c (List.mem_cons_self c cs))]
    rfl

/-- `isMassStart` holds exactly when there are more than two races and
all races share one heat value. -/
theorem isMassStart_iff (races : List RawRace) :
    isMassStart races = true ↔
      (2 < races.length ∧ ∀ r ∈ races, ∀ s ∈ races, r.heat = s.heat) := by
  unfold isMassStart
  rw [Bool.and_eq_true, decide_eq_true_eq, decide_eq_true_eq]
  have hlen_ne : 2 < races.length → races.map (fun r => r.heat) ≠ [] := by
    intro hlen hc
    have : (races.map (fun r => r.heat)).length = 0 := by rw [hc]; rfl
    rw [List.length_map] at this
    omega
  constructor
  · rintro ⟨hlen, hded⟩
    refine ⟨hlen, ?_⟩
    have hall := (dedup_singleton_iff (hlen_ne hlen)).mp hded
    intro r hr s hs
    exact hall _ (List.mem_map_of_mem _ hr) _ (List.mem_map_of_mem _ hs)
  · rintro ⟨hlen, hall⟩
    refine ⟨hlen, ?_⟩
    apply (dedup_singleton_iff (hlen_ne hlen)).mpr
    intro x hx y hy
    obtain ⟨r, hr, rfl⟩ := List.mem_map.mp hx
    obtain ⟨s, hs, rfl⟩ := List.mem_map.mp hy
    exact hall r hr s hs

/-- Unfolding equation: binding `none`. -/
theorem optBind_none {α β : Type} (f : α → Option β) : Option.bind none f = none := rfl

/-- Unfolding equation: binding `some`. -/
theorem optBind_some {α β : Type} (a : α) (f : α → Option β) : Option.bind (some a) f = f a := rfl

/-- Inversion of `processDistance`: names for the base list, the ranked
list, the mass-start result, and the exact shape of the produced meta
and competitor dict. -/
theorem processDistance_inv {dist : RawDistance} {meta : DistanceMeta}
    {comps : List (String × CompetitorEntry)}
    (h : processDistance dist = some (meta, comps)) :
    ∃ base res,
      seqMap (processRace (isMassStart (distRaces dist)) dist.id) (distRaces dist) = some base ∧
      massResult (isMassStart (distRaces dist))
        (if isMassStart (distRaces dist) then findLapsCount dist.name else none)
        (posAssign 1 (List.insertionSort rankLE base)) = some res ∧
      meta = { id := dist.id, name := dist.name, event_number := dist.eventNumber.getD 0
               is_live := dist.isLive.getD false, is_mass_start := isMassStart (distRaces dist)
               distance_meters := if isMassStart (distRaces dist) then none else findMeters dist.name
               total_laps := if isMassStart (distRaces dist) then findLapsCount dist.name else none
               any_finished := res.2.2
               finishing_line_after :=
                 (((posAssign 1 (List.insertionSort rankLE base)).filter
                     (fun r => decide (r.total_time ≠ ""))).getLast?).map (fun r => r.id)
               standings_groups := res.2.1
               heat_groups := if isMassStart (distRaces dist) then [] else
                 heatGroupsOf (posAssign 1 (List.insertionSort rankLE base)) } ∧
      comps = dictOf (res.1.map (fun r => (r.id, r))) := by
  simp only [processDistance, bind] at h
  cases hseq : seqMap (processRace (isMassStart (distRaces dist)) dist.id) (distRaces dist) with
  | none => rw [hseq] at h; exact Option.noConfusion h
  | some base =>
    rw [hseq] at h
    simp only [optBind_some] at h
    cases hres : massResult (isMassStart (distRaces dist))
        (if isMassStart (distRaces dist) then findLapsCount dist.name else none)
        (posAssign 1 (List.insertionSort rankLE base)) with
    | none => rw [hres] at h; exact Option.noConfusion h
    | some res =>
      rw [hres] at h
      simp only [optBind_some, Option.pure_def, Option.some.injEq] at h
      refine ⟨base, res, rfl, hres, ?_, ?_⟩
      · exact (congrArg Prod.fst h).symm
      · exact (congrArg Prod.snd h).symm

/-- The `is_mass_start` field of a produced distance meta is the
classification of the raw races. -/
theorem processDistance_is_mass_start {dist : RawDistance} {meta : DistanceMeta}
    {comps : List (String × CompetitorEntry)}
    (h : processDistance dist = some (meta, comps)) :
    meta.is_mass_start = isMassStart (distRaces dist) := by
  obtain ⟨base, res, _, _, hmeta, _⟩ := processDistance_inv h
  rw [hmeta]

/-- C4: the State Processor classifies a distance as mass-start iff its
race count is greater than 2 and all its races share one heat value; in
particular 3 races with one heat is mass-start, 2 races is not, and 3
races with distinct heats is not. -/
theorem mass_start_classification :
    (∀ (dist : RawDistance) (meta : DistanceMeta) (comps : List (String × CompetitorEntry)),
        processDistance dist = some (meta, comps) →
        (meta.is_mass_start = true ↔
          2 < (distRaces dist).length ∧
          ∀ r ∈ distRaces dist, ∀ s ∈ distRaces dist, r.heat = s.heat)) ∧
    (processDistance dSameHeat3).map (fun p => p.1.is_mass_start) = some true ∧
    (processDistance dTwoHeats).map (fun p => p.1.is_mass_start) = some false ∧
    (processDistance dThreeHeats).map (fun p => p.1.is_mass_start) = some false := by
  refine ⟨?_, by decide, by decide, by decide⟩
  intro dist meta comps h
  rw [processDistance_is_mass_start h]
  exact isMassStart_iff _

/-- Witness for `mass_start_classification`: the classification `iff`
instantiated at the concrete three-race one-heat distance. -/
theorem mass_start_classification_witness :
    ((processDistance dSameHeat3).getD (emptyMeta, [])).1.is_mass_start = true ↔
      2 < (distRaces dSameHeat3).length ∧
      ∀ r ∈ distRaces dSameHeat3, ∀ s ∈ distRaces dSameHeat3, r.heat = s.heat :=
  mass_start_classification.1 dSameHeat3
    ((processDistance dSameHeat3).getD (emptyMeta, [])).1
    ((processDistance dSameHeat3).getD (emptyMeta, [])).2 (by rfl)

/-! ## Stage lemmas: the pipeline after ranking preserves the core -/

/-- Position assignment writes `k, k+1, …` in list order. -/
theorem posAssign_map_position :
    ∀ (l : List CompetitorEntry) (k : Nat),
      (posAssign k l).map (fun r => r.position) = List.range' k l.length := by
  intro l
  induction l with
  | nil => intro k; rfl
  | cons r rs ih => intro k; simp [posAssign, List.range', ih]

/-- Position assignment keeps the list length. -/
theorem posAssign_length (l : List CompetitorEntry) (k : Nat) :
    (posAssign k l).length = l.length := by
  induction l generalizing k with
  | nil => rfl
  | cons r rs ih => simp [posAssign, ih]

/-- Members of the position-assigned list are position-updates of members
of the input. -/
theorem posAssign_mem {x : CompetitorEntry} :
    ∀ {l : List CompetitorEntry} {k : Nat}, x ∈ posAssign k l →
      ∃ y ∈ l, ∃ j, x = { y with position := j } := by
  intro l
  induction l with
  | nil => intro k h; cases h
  | cons r rs ih =>
    intro k h
    rcases List.mem_cons.mp h with h | h
    · exact ⟨r, List.mem_cons_self r rs, k, h⟩
    · obtain ⟨y, hy, j, hj⟩ := ih h
      exact ⟨y, List.mem_cons_of_mem r hy, j, hj⟩

/-- Position assignment does not change any position-free projection. -/
theorem posAssign_map_of_position_free {γ : Type} (f : CompetitorEntry → γ)
    (hf : ∀ r k, f { r with position := k } = f r) :
    ∀ (l : List CompetitorEntry) (k : Nat), (posAssign k l).map f = l.map f := by
  intro l
  induction l with
  | nil => intro k; rfl
  | cons r rs ih => intro k; simp [posAssign, hf, ih]

/-- The mass-start progression loop preserves the core projection. -/
theorem assignFinish_map_core (tl : Nat) :
    ∀ (l : List CompetitorEntry) (k : Nat), (assignFinish tl k l).map core = l.map core := by
  intro l
  induction l with
  | nil => intro k; rfl
  | cons r rs ih =>
    intro k
    by_cases h : tl - r.laps_count = 0
    · simp [assignFinish, h, ih, core]
    · simp [assignFinish, h, ih, core]

/-- The gap-assignment loop preserves the core projection. -/
theorem setGapsAux_map_core {gnum : Nat} :
    ∀ {l : List CompetitorEntry} {prev : CompetitorEntry} {us : List CompetitorEntry},
      setGapsAux gnum prev l = some us → us.map core = l.map core := by
  intro l
  induction l with
  | nil =>
    intro prev us h
    simp only [setGapsAux, Option.some.injEq] at h
    rw [← h]
  | cons r rs ih =>
    intro prev us h
    simp only [setGapsAux, bind] at h
    cases hd : _time_diff prev.total_time r.total_time with
    | none => rw [hd] at h; exact Option.noConfusion h
    | some d =>
      rw [hd] at h
      simp only [optBind_some] at h
      cases hrest : setGapsAux gnum { r with group_number := some gnum, gap_to_above := some (gapStr d) } rs with
      | none => rw [hrest] at h; exact Option.noConfusion h
      | some rest =>
        rw [hrest] at h
        simp only [optBind_some, Option.pure_def, Option.some.injEq] at h
        rw [← h]
        simp [core, ih hrest]

/-- The per-group member update preserves the core projection. -/
theorem setGaps_map_core {gnum : Nat} :
    ∀ {l us : List CompetitorEntry}, setGaps gnum l = some us → us.map core = l.map core := by
  intro l us h
  cases l with
  | nil =>
    simp only [setGaps, Option.some.injEq] at h
    rw [← h]
  | cons r rs =>
    simp only [setGaps, bind] at h
    cases hrest : setGapsAux gnum { r with group_number := some gnum } rs with
    | none => rw [hrest] at h; exact Option.noConfusion h
    | some rest =>
      rw [hrest] at h
      simp only [optBind_some, Option.pure_def, Option.some.injEq] at h
      rw [← h]
      simp [core, setGapsAux_map_core hrest]

/-- The flat list of updated members has the cores of the grouped
members, in order. -/
theorem applyGroupUpdates_map_core :
    ∀ {gs : List (Nat × List CompetitorEntry)} {gnum : Nat} {us : List CompetitorEntry},
      applyGroupUpdates gnum gs = some us →
      us.map core = ((gs.map (fun g => g.2)).flatten).map core := by
  intro gs
  induction gs with
  | nil =>
    intro gnum us h
    simp only [applyGroupUpdates, Option.some.injEq] at h
    rw [← h]
    rfl
  | cons g gs ih =>
    intro gnum us h
    simp only [applyGroupUpdates, bind] at h
    cases hu : setGaps gnum g.2 with
    | none => rw [hu] at h; exact Option.noConfusion h
    | some u =>
      rw [hu] at h
      simp only [optBind_some] at h
      cases hrest : applyGroupUpdates (gnum + 1) gs with
      | none => rw [hrest] at h; exact Option.noConfusion h
      | some rest =>
        rw [hrest] at h
        simp only [optBind_some, Option.pure_def, Option.some.injEq] at h
        rw [← h]
        simp [List.map_append, setGaps_map_core hu, ih hrest]

/-- The grouping loop partitions its input: the groups flatten back to
the input list (with the current group in front). -/
theorem buildGroupsAux_flatten :
    ∀ {l : List CompetitorEntry} {cur : Nat × List CompetitorEntry}
      {gs : List (Nat × List CompetitorEntry)},
      buildGroupsAux cur l = some gs →
      ((gs.map (fun g => g.2)).flatten) = cur.2 ++ l := by
  intro l
  induction l with
  | nil =>
    intro cur gs h
    simp only [buildGroupsAux, Option.some.injEq] at h
    rw [← h]
    simp
  | cons r rs ih =>
    intro cur gs h
    simp only [buildGroupsAux] at h
    by_cases hl : r.laps_count = cur.1
    · rw [if_pos hl] at h
      simp only [bind] at h
      cases hd : _time_diff (lastTotalTime cur.2) r.total_time with
      | none => rw [hd] at h; exact Option.noConfusion h
      | some d =>
        rw [hd] at h
        simp only [optBind_some] at h
        by_cases hle : d.le (PyFloat.ofInt 2) = true
        · rw [if_pos hle] at h
          have := ih h
          simpa [List.append_assoc] using this
        · rw [if_neg hle] at h
          cases hrest : buildGroupsAux (r.laps_count, [r]) rs with
          | none => rw [hrest] at h; exact Option.noConfusion h
          | some rest =>
            rw [hrest] at h
            simp only [optBind_some, Option.pure_def, Option.some.injEq] at h
            rw [← h]
            simp [ih hrest]
    · rw [if_neg hl] at h
      simp only [bind] at h
      cases hrest : buildGroupsAux (r.laps_count, [r]) rs with
      | none => rw [hrest] at h; exact Option.noConfusion h
      | some rest =>
        rw [hrest] at h
        simp only [optBind_some, Option.pure_def, Option.some.injEq] at h
        rw [← h]
        simp [ih hrest]

/-- The standings groups flatten back to the unfinished list. -/
theorem buildGroups_flatten {l : List CompetitorEntry}
    {gs : List (Nat × List CompetitorEntry)} (h : buildGroups l = some gs) :
    ((gs.map (fun g => g.2)).flatten) = l := by
  cases l with
  | nil =>
    simp only [buildGroups, Option.some.injEq] at h
    rw [← h]
    rfl
  | cons r rs =>
    simpa using buildGroupsAux_flatten h

/-- Replacing the filtered members by core-equal updates preserves the
cores of the whole list. -/
theorem mergeUpdated_map_core :
    ∀ (rs us : List CompetitorEntry),
      us.map core = (rs.filter unfinPred).map core →
      (mergeUpdated rs us).map core = rs.map core := by
  intro rs
  induction rs with
  | nil => intro us _; rfl
  | cons r rs ih =>
    intro us hus
    by_cases hp : unfinPred r = true
    · rw [List.filter_cons_of_pos hp] at hus
      cases us with
      | nil => simp at hus
      | cons u us' =>
        simp only [List.map_cons, List.cons.injEq] at hus
        simp [mergeUpdated, hp, List.map_cons, hus.1, ih us' hus.2]
    · rw [List.filter_cons_of_neg (by simpa using hp)] at hus
      simp [mergeUpdated, hp, List.map_cons, ih us hus]

/-- The whole mass-start block preserves the cores of the ranked list. -/
theorem massUpdate_map_core {tl : Nat} {processed : List CompetitorEntry}
    {res : List CompetitorEntry × List StandingsGroup × Bool}
    (h : massUpdate tl processed = some res) :
    res.1.map core = processed.map core := by
  simp only [massUpdate, bind] at h
  cases hg : buildGroups (unfinishedOf (assignFinish tl 1 processed)) with
  | none => rw [hg] at h; exact Option.noConfusion h
  | some groups =>
    rw [hg] at h
    simp only [optBind_some] at h
    cases hu : applyGroupUpdates 1 groups with
    | none => rw [hu] at h; exact Option.noConfusion h
    | some upd =>
      rw [hu] at h
      simp only [optBind_some] at h
      cases hs : standingsOf groups with
      | none => rw [hs] at h; exact Option.noConfusion h
      | some sgs =>
        rw [hs] at h
        simp only [optBind_some, Option.pure_def, Option.some.injEq] at h
        have h1 : res.1 = mergeUpdated (assignFinish tl 1 processed) upd := by rw [← h]
        rw [h1]
        have hupd : upd.map core = ((assignFinish tl 1 processed).filter unfinPred).map core := by
          rw [applyGroupUpdates_map_core hu, buildGroups_flatten hg]
          rfl
        rw [mergeUpdated_map_core _ _ hupd, assignFinish_map_core]

/-- The guarded mass-start block preserves the cores of the ranked list. -/
theorem massResult_map_core {ims : Bool} {tl : Option Nat} {processed : List CompetitorEntry}
    {res : List CompetitorEntry × List StandingsGroup × Bool}
    (h : massResult ims tl processed = some res) :
    res.1.map core = processed.map core := by
  unfold massResult at h
  by_cases hc : ims = true ∧ tl.getD 0 ≠ 0
  · rw [if_pos hc] at h
    exact massUpdate_map_core h
  · rw [if_neg hc] at h
    simp only [Option.pure_def, Option.some.injEq] at h
    rw [← h]

/-- Members produced by `seqMap` come from members of the input. -/
theorem seqMap_mem {α β : Type} {f : α → Option β} :
    ∀ {l : List α} {bs : List β}, seqMap f l = some bs →
      ∀ b ∈ bs, ∃ a ∈ l, f a = some b := by
  intro l
  induction l with
  | nil =>
    intro bs h b hb
    simp only [seqMap, Option.some.injEq] at h
    rw [← h] at hb
    cases hb
  | cons a l ih =>
    intro bs h b hb
    simp only [seqMap, bind] at h
    cases hfa : f a with
    | none => rw [hfa] at h; exact Option.noConfusion h
    | some b0 =>
      rw [hfa] at h
      simp only [optBind_some] at h
      cases hrest : seqMap f l with
      | none => rw [hrest] at h; exact Option.noConfusion h
      | some bs' =>
        rw [hrest] at h
        simp only [optBind_some, Option.pure_def, Option.some.injEq] at h
        rw [← h] at hb
        rcases List.mem_cons.mp hb with hb | hb
        · exact ⟨a, List.mem_cons_self a l, by rw [hfa, hb]⟩
        · obtain ⟨a', ha', hfa'⟩ := ih hrest b hb
          exact ⟨a', List.mem_cons_of_mem a ha', hfa'⟩

/-- Projection transport through `seqMap`: if `f` sends `a` to an output
whose `proj` is `g a`, the output projections are the input images. -/
theorem seqMap_map {α β γ : Type} {f : α → Option β} {proj : β → γ} {g : α → γ}
    (hfg : ∀ a b, f a = some b → proj b = g a) :
    ∀ {l : List α} {bs : List β}, seqMap f l = some bs → bs.map proj = l.map g := by
  intro l
  induction l with
  | nil =>
    intro bs h
    simp only [seqMap, Option.some.injEq] at h
    rw [← h]
    rfl
  | cons a l ih =>
    intro bs h
    simp only [seqMap, bind] at h
    cases hfa : f a with
    | none => rw [hfa] at h; exact Option.noConfusion h
    | some b0 =>
      rw [hfa] at h
      simp only [optBind_some] at h
      cases hrest : seqMap f l with
      | none => rw [hrest] at h; exact Option.noConfusion h
      | some bs' =>
        rw [hrest] at h
        simp only [optBind_some, Option.pure_def, Option.some.injEq] at h
        rw [← h]
        simp [hfg a b0 hfa, ih hrest]

/-- `seqMap` preserves the length. -/
theorem seqMap_length {α β : Type} {f : α → Option β}
    {l : List α} {bs : List β} (h : seqMap f l = some bs) : bs.length = l.length := by
  have := @seqMap_map α β Unit f (fun _ => Unit.unit) (fun _ => Unit.unit) (fun _ _ _ => rfl) l bs h
  have hlen := congrArg List.length this
  simpa using hlen

/-! ## Per-race facts -/

/-- The selected total time comes from one of the laps. -/
theorem lapMaxTime_mem {laps : List RawLap} (h : laps ≠ []) :
    ∃ lp ∈ laps, lapMaxTime laps = lp.time := by
  unfold lapMaxTime
  cases hl : (List.insertionSort lapLE laps).getLast? with
  | none =>
    exfalso
    rw [List.getLast?_eq_none_iff] at hl
    have := (List.perm_insertionSort lapLE laps).length_eq
    rw [hl] at this
    cases laps with
    | nil => exact h rfl
    | cons a l => simp at this
  | some lp =>
    refine ⟨lp, ?_, rfl⟩
    have hmem : lp ∈ List.insertionSort lapLE laps := by
      obtain ⟨ys, hys⟩ := List.getLast?_eq_some_iff.mp hl
      rw [hys]
      exact List.mem_append_right ys (List.mem_cons_self lp [])
    exact (List.perm_insertionSort lapLE laps).mem_iff.mp hmem

/-- Inversion of the per-race base processing: the shape of the produced
entry, with the warm-up-stripped lap list made explicit. -/
theorem processRace_inv {ims : Bool} {distId : String} {race : RawRace} {e : CompetitorEntry}
    (h : processRace ims distId race = some e) :
    e.id = race.id ∧ e.position = 0 ∧ e.position_change = none ∧ e.finished_rank = none ∧
    e.laps_count = (if ims ∧ race.laps.getD [] ≠ [] then (race.laps.getD []).tail
                    else race.laps.getD []).length ∧
    ((if ims ∧ race.laps.getD [] ≠ [] then (race.laps.getD []).tail else race.laps.getD []) = [] ∧
       e.total_time = "" ∧ e.formatted_total_time = "No Time" ∨
     (if ims ∧ race.laps.getD [] ≠ [] then (race.laps.getD []).tail else race.laps.getD []) ≠ [] ∧
       e.total_time = lapMaxTime (if ims ∧ race.laps.getD [] ≠ [] then (race.laps.getD []).tail
                                  else race.laps.getD []) ∧
       _format_time e.total_time = some e.formatted_total_time) := by
  simp only [processRace, bind] at h
  by_cases hlaps : (if ims ∧ race.laps.getD [] ≠ [] then (race.laps.getD []).tail
                    else race.laps.getD []) = []
  · rw [if_pos hlaps] at h
    simp only [optBind_some, Option.pure_def, Option.some.injEq] at h
    rw [← h]
    refine ⟨rfl, rfl, rfl, rfl, ?_, Or.inl ⟨hlaps, rfl, rfl⟩⟩
    rw [hlaps]
  · rw [if_neg hlaps] at h
    cases hft : _format_time (lapMaxTime (if ims ∧ race.laps.getD [] ≠ []
        then (race.laps.getD []).tail else race.laps.getD [])) with
    | none => rw [hft] at h; exact Option.noConfusion h
    | some ftt =>
      rw [hft] at h
      simp only [optBind_some, Option.pure_def, Option.some.injEq] at h
      rw [← h]
      exact ⟨rfl, rfl, rfl, rfl, rfl, Or.inr ⟨hlaps, rfl, hft⟩⟩

/-! ## Dictionary lemmas -/

/-- Elements of a dict after one assignment come from the dict or are the
assigned pair. -/
theorem mem_dictInsert {α : Type} {x : String × α} :
    ∀ {m : List (String × α)} {k : String} {v : α},
      x ∈ dictInsert m k v → x ∈ m ∨ x = (k, v) := by
  intro m
  induction m with
  | nil =>
    intro k v h
    simp only [dictInsert] at h
    rcases List.mem_singleton.mp h with h
    exact Or.inr h
  | cons p ps ih =>
    intro k v h
    simp only [dictInsert] at h
    by_cases hk : p.1 = k
    · rw [if_pos hk] at h
      rcases List.mem_cons.mp h with h | h
      · exact Or.inr h
      · exact Or.inl (List.mem_cons_of_mem p h)
    · rw [if_neg hk] at h
      rcases List.mem_cons.mp h with h | h
      · exact Or.inl (h ▸ List.mem_cons_self p ps)
      · rcases ih h with h | h
        · exact Or.inl (List.mem_cons_of_mem p h)
        · exact Or.inr h

/-- Elements of a dict built by consecutive keyed assignments come from
the starting dict or from the assigned pairs. -/
theorem mem_foldl_dictInsert {α β : Type} (key : β → String) (val : β → α) :
    ∀ (l : List β) (acc : List (String × α)) (x : String × α),
      x ∈ l.foldl (fun m p => dictInsert m (key p) (val p)) acc →
      x ∈ acc ∨ ∃ p ∈ l, x = (key p, val p) := by
  intro l
  induction l with
  | nil => intro acc x h; exact Or.inl h
  | cons q qs ih =>
    intro acc x h
    rw [List.foldl_cons] at h
    rcases ih (dictInsert acc (key q) (val q)) x h with h | ⟨p, hp, hx⟩
    · rcases mem_dictInsert h with h | h
      · exact Or.inl h
      · exact Or.inr ⟨q, List.mem_cons_self q qs, h⟩
    · exact Or.inr ⟨p, List.mem_cons_of_mem q hp, hx⟩

/-- Assigning a fresh key appends the pair. -/
theorem dictInsert_of_fresh {α : Type} :
    ∀ {m : List (String × α)} {k : String} {v : α},
      (∀ p ∈ m, p.1 ≠ k) → dictInsert m k v = m ++ [(k, v)] := by
  intro m
  induction m with
  | nil => intro k v _; rfl
  | cons p ps ih =>
    intro k v hfresh
    simp only [dictInsert]
    rw [if_neg (hfresh p (List.mem_cons_self p ps))]
    rw [ih (fun q hq => hfresh q (List.mem_cons_of_mem p hq))]
    rfl

/-- Building a dict from pairs with pairwise-distinct keys reproduces the
pair list. -/
theorem dictOf_eq_self {α : Type} :
    ∀ {l : List (String × α)}, (l.map Prod.fst).Nodup → dictOf l = l := by
  have aux : ∀ (l acc : List (String × α)),
      (∀ p ∈ acc, ∀ q ∈ l, p.1 ≠ q.1) → (l.map Prod.fst).Nodup →
      l.foldl (fun m p => dictInsert m p.1 p.2) acc = acc ++ l := by
    intro l
    induction l with
    | nil => intro acc _ _; simp
    | cons q qs ih =>
      intro acc hdisj hnd
      rw [List.foldl_cons]
      have hfresh : ∀ p ∈ acc, p.1 ≠ q.1 :=
        fun p hp => hdisj p hp q (List.mem_cons_self q qs)
      rw [dictInsert_of_fresh hfresh]
      rw [List.map_cons, List.nodup_cons] at hnd
      rw [ih (acc ++ [(q.1, q.2)]) ?_ hnd.2]
      · simp
      · intro p hp s hs
        rcases List.mem_append.mp hp with hp | hp
        · exact hdisj p hp s (List.mem_cons_of_mem q hs)
        · rcases List.mem_singleton.mp hp with rfl
          intro hc
          exact hnd.1 (hc ▸ List.mem_map_of_mem Prod.fst hs)
  intro l hnd
  simpa using aux l [] (fun p hp => absurd hp (List.not_mem_nil p)) hnd

/-- A successful dict lookup is a membership. -/
theorem dictGet_mem {α : Type} :
    ∀ {m : List (String × α)} {k : String} {v : α},
      dictGet m k = some v → (k, v) ∈ m := by
  intro m
  induction m with
  | nil => intro k v h; exact Option.noConfusion h
  | cons p ps ih =>
    intro k v h
    simp only [dictGet] at h
    by_cases hk : p.1 = k
    · rw [if_pos hk] at h
      have : v = p.2 := by injection h with h'; rw [h']
      rw [this, ← hk]
      exact List.mem_cons_self p ps
    · rw [if_neg hk] at h
      exact List.mem_cons_of_mem p (ih h)

/-! ## Processor inversions -/

/-- The competitor dict of a processed distance is the dict of a final
list whose cores are those of the ranked, position-assigned list. -/
theorem processDistance_comps {dist : RawDistance} {meta : DistanceMeta}
    {comps : List (String × CompetitorEntry)}
    (h : processDistance dist = some (meta, comps)) :
    ∃ (base fin : List CompetitorEntry),
      seqMap (processRace (isMassStart (distRaces dist)) dist.id) (distRaces dist) = some base ∧
      fin.map core = (posAssign 1 (List.insertionSort rankLE base)).map core ∧
      comps = dictOf (fin.map (fun r => (r.id, r))) := by
  obtain ⟨base, res, hbase, hres, _, hcomps⟩ := processDistance_inv h
  exact ⟨base, res.1, hbase, massResult_map_core hres, hcomps⟩

/-- Inversion of `_process`: the distance triples and the two dict
folds. -/
theorem process_inv {raw : RawPayload} {st : ProcessedState} (h : _process raw = some st) :
    ∃ triples,
      seqMap (fun d => (processDistance d).map (fun p => (d.id, p))) (raw.distances.getD []) =
        some triples ∧
      st.name = raw.name.getD "" ∧
      st.distances = triples.foldl (fun m p => dictInsert m p.1 p.2.1) [] ∧
      st.competitors = triples.foldl (fun m p => dictInsert m p.1 p.2.2) [] := by
  simp only [_process, bind] at h
  cases htr : seqMap (fun d => (processDistance d).map (fun p => (d.id, p)))
      (raw.distances.getD []) with
  | none => rw [htr] at h; exact Option.noConfusion h
  | some triples =>
    rw [htr] at h
    simp only [optBind_some, Option.pure_def, Option.some.injEq] at h
    exact ⟨triples, rfl, by rw [← h], by rw [← h], by rw [← h]⟩

/-- Every distance entry of the competitors dict of a processed state is
the competitor dict of `processDistance` on one of the raw distances. -/
theorem process_competitors_mem {raw : RawPayload} {st : ProcessedState}
    (h : _process raw = some st) {p : String × List (String × CompetitorEntry)}
    (hp : p ∈ st.competitors) :
    ∃ d ∈ raw.distances.getD [], ∃ meta, processDistance d = some (meta, p.2) := by
  obtain ⟨triples, htr, _, _, hcomp⟩ := process_inv h
  rw [hcomp] at hp
  rcases mem_foldl_dictInsert (fun t => t.1) (fun t => t.2.2) triples [] p hp with hc | ⟨t, ht, hx⟩
  · cases hc
  · obtain ⟨d, hd, hfd⟩ := seqMap_mem htr t ht
    obtain ⟨pd, hpd, hdt⟩ := Option.map_eq_some'.mp hfd
    refine ⟨d, hd, pd.1, ?_⟩
    have h2 : p.2 = pd.2 := by rw [hx, ← hdt]
    rw [h2] at *
    rw [hpd]

/-- Per-distance position contiguity: with unique race ids, the produced
competitor dict lists positions `1, …, N` in order. -/
theorem processDistance_positions {dist : RawDistance} {meta : DistanceMeta}
    {comps : List (String × CompetitorEntry)}
    (h : processDistance dist = some (meta, comps))
    (hnd : ((distRaces dist).map (fun r => r.id)).Nodup) :
    comps.map (fun q => q.2.position) = List.range' 1 comps.length := by
  obtain ⟨base, fin, hbase, hcore, hcomps⟩ := processDistance_comps h
  have hbase_ids : base.map (fun r => r.id) = (distRaces dist).map (fun r => r.id) :=
    seqMap_map (fun a b hb => (processRace_inv hb).1) hbase
  have hperm := (List.perm_insertionSort rankLE base).map (fun r : CompetitorEntry => r.id)
  have hproc_ids : (posAssign 1 (List.insertionSort rankLE base)).map (fun r => r.id) =
      (List.insertionSort rankLE base).map (fun r => r.id) :=
    posAssign_map_of_position_free (fun r => r.id) (fun r k => rfl) _ 1
  have hfin_ids : fin.map (fun r => r.id) =
      (posAssign 1 (List.insertionSort rankLE base)).map (fun r => r.id) := by
    calc fin.map (fun r => r.id) = (fin.map core).map (fun c => c.id) := by
          rw [List.map_map]; rfl
      _ = ((posAssign 1 (List.insertionSort rankLE base)).map core).map (fun c => c.id) := by
          rw [hcore]
      _ = (posAssign 1 (List.insertionSort rankLE base)).map (fun r => r.id) := by
          rw [List.map_map]; rfl
  have hfin_nodup : (fin.map (fun r => r.id)).Nodup := by
    rw [hfin_ids, hproc_ids]
    exact hperm.nodup_iff.mpr (by rw [hbase_ids]; exact hnd)
  have hcomps' : comps = fin.map (fun r => (r.id, r)) := by
    rw [hcomps]
    apply dictOf_eq_self
    have hkeys : (fin.map (fun r => (r.id, r))).map Prod.fst = fin.map (fun r => r.id) := by
      rw [List.map_map]; rfl
    rw [hkeys]
    exact hfin_nodup
  have hpos : fin.map (fun r => r.position) =
      List.range' 1 (List.insertionSort rankLE base).length := by
    calc fin.map (fun r => r.position) = (fin.map core).map (fun c => c.position) := by
          rw [List.map_map]; rfl
      _ = ((posAssign 1 (List.insertionSort rankLE base)).map core).map (fun c => c.position) := by
          rw [hcore]
      _ = (posAssign 1 (List.insertionSort rankLE base)).map (fun r => r.position) := by
          rw [List.map_map]; rfl
      _ = List.range' 1 (List.insertionSort rankLE base).length :=
          posAssign_map_position _ 1
  have hlen : comps.length = (List.insertionSort rankLE base).length := by
    rw [hcomps', List.length_map]
    have hc := congrArg List.length hcore
    simp only [List.length_map] at hc
    rw [hc, posAssign_length]
  have hmapped : comps.map (fun q => q.2.position) = fin.map (fun r => r.position) := by
    rw [hcomps', List.map_map]; rfl
  rw [hmapped, hpos, hlen]

/-- C3: in every `ProcessedState` produced by the state processor (on a
payload whose race ids are unique within each distance, the stated data
invariant), the position values of every distance form exactly the
contiguous sequence 1, …, N with no gaps or duplicates, N being the
competitor count of that distance. -/
theorem positions_contiguous :
    ∀ (raw : RawPayload) (st : ProcessedState),
      _process raw = some st →
      (∀ d ∈ raw.distances.getD [], ((distRaces d).map (fun r => r.id)).Nodup) →
      ∀ p ∈ st.competitors, p.2.map (fun q => q.2.position) = List.range' 1 p.2.length := by
  intro raw st h hnd p hp
  obtain ⟨d, hd, meta, hpd⟩ := process_competitors_mem h hp
  exact processDistance_positions hpd (hnd d hd)

/-- Witness for `positions_contiguous` at the concrete mass-start
payload (three competitors, positions 1, 2, 3). -/
theorem positions_contiguous_witness :
    ((dictGet ((_process rawMass).getD emptyState).competitors "d1").getD []).map
        (fun q => q.2.position) =
      List.range' 1 ((dictGet ((_process rawMass).getD emptyState).competitors "d1").getD []).length :=
  positions_contiguous rawMass ((_process rawMass).getD emptyState) (by rfl) (by decide)
    ("d1", (dictGet ((_process rawMass).getD emptyState).competitors "d1").getD []) (by decide)

/-- Dict building never invents elements. -/
theorem mem_dictOf {α : Type} {l : List (String × α)} {x : String × α}
    (h : x ∈ dictOf l) : x ∈ l := by
  rcases mem_foldl_dictInsert Prod.fst Prod.snd l [] x h with hc | ⟨p, hp, hx⟩
  · cases hc
  · have hxp : x = p := by rw [hx]
    rw [hxp]
    exact hp

/-- Per-distance: every produced competitor entry has `position_change`
unset. -/
theorem processDistance_position_change {dist : RawDistance} {meta : DistanceMeta}
    {comps : List (String × CompetitorEntry)}
    (h : processDistance dist = some (meta, comps)) :
    ∀ p ∈ comps, p.2.position_change = none := by
  obtain ⟨base, fin, hbase, hcore, hcomps⟩ := processDistance_comps h
  have hbase_pc : ∀ y ∈ base, y.position_change = none := by
    intro y hy
    obtain ⟨race, _, hr⟩ := seqMap_mem hbase y hy
    exact (processRace_inv hr).2.2.1
  have hfin_pc : ∀ r ∈ fin, r.position_change = none := by
    intro r hr
    have h1 : core r ∈ fin.map core := List.mem_map_of_mem core hr
    rw [hcore] at h1
    obtain ⟨y, hy, hyc⟩ := List.mem_map.mp h1
    obtain ⟨z, hz, j, hzj⟩ := posAssign_mem hy
    have hz' : z ∈ base := (List.perm_insertionSort rankLE base).mem_iff.mp hz
    have hyz : y.position_change = z.position_change := by rw [hzj]
    have hry : r.position_change = y.position_change := by
      have hc := congrArg CoreView.position_change hyc
      simpa [core] using hc.symm
    rw [hry, hyz]
    exact hbase_pc z hz'
  intro p hp
  have hpf : p ∈ fin.map (fun r => (r.id, r)) := mem_dictOf (hcomps ▸ hp)
  obtain ⟨r, hr, hpr⟩ := List.mem_map.mp hpf
  have hp2 : p.2 = r := by rw [← hpr]
  rw [hp2]
  exact hfin_pc r hr

/-- C10: in every competitor entry of every `ProcessedState` produced by
the state processor, the optional `position_change` field is `None`: it
is declared in the data model but never computed or populated. -/
theorem position_change_always_none :
    ∀ (raw : RawPayload) (st : ProcessedState), _process raw = some st →
      ∀ p ∈ st.competitors, ∀ q ∈ p.2, q.2.position_change = none := by
  intro raw st h p hp q hq
  obtain ⟨d, _, meta, hpd⟩ := process_competitors_mem h hp
  exact processDistance_position_change hpd q hq

/-- Witness for `position_change_always_none` at the concrete mass-start
payload. -/
theorem position_change_always_none_witness :
    ((dictGet ((dictGet ((_process rawMass).getD emptyState).competitors "d1").getD []) "r1").getD
        emptyEntry).position_change = none :=
  position_change_always_none rawMass ((_process rawMass).getD emptyState) (by rfl)
    ("d1", (dictGet ((_process rawMass).getD emptyState).competitors "d1").getD []) (by decide)
    ("r1", (dictGet ((dictGet ((_process rawMass).getD emptyState).competitors "d1").getD [])
        "r1").getD emptyEntry) (by decide)

/-! ## Character-domain facts of the time formatter -/

/-- Digit characters of base-10 rendering. -/
theorem digitChar_isDigit {m : Nat} (h : m < 10) : (Nat.digitChar m).isDigit = true := by
  interval_cases m <;> decide

/-- Every character `Nat.toDigitsCore` prepends is a digit. -/
theorem toDigitsCore_digits :
    ∀ (fuel n : Nat) (acc : List Char),
      (∀ c ∈ acc, c.isDigit = true) →
      ∀ c ∈ Nat.toDigitsCore 10 fuel n acc, c.isDigit = true := by
  intro fuel
  induction fuel with
  | zero =>
    intro n acc hacc c hc
    simp only [Nat.toDigitsCore] at hc
    exact hacc c hc
  | succ fuel ih =>
    intro n acc hacc c hc
    simp only [Nat.toDigitsCore] at hc
    have hd : (n % 10).digitChar.isDigit = true :=
      digitChar_isDigit (Nat.mod_lt n (by decide))
    by_cases h0 : n / 10 = 0
    · rw [if_pos h0] at hc
      rcases List.mem_cons.mp hc with hc | hc
      · rw [hc]; exact hd
      · exact hacc c hc
    · rw [if_neg h0] at hc
      refine ih (n / 10) ((n % 10).digitChar :: acc) ?_ c hc
      intro c' hc'
      rcases List.mem_cons.mp hc' with hc' | hc'
      · rw [hc']; exact hd
      · exact hacc c' hc'

/-- `str(n)` for a natural number consists of digit characters. -/
theorem toString_nat_digits (n : Nat) : ∀ c ∈ (toString n).data, c.isDigit = true := by
  intro c hc
  have h : (toString n).data = Nat.toDigits 10 n := rfl
  rw [h] at hc
  exact toDigitsCore_digits (n + 1) n [] (fun c' hc' => absurd hc' (List.not_mem_nil c')) c hc

/-- Characters of split groups come from the split string. -/
theorem splitOnChar_subset {sep : Char} :
    ∀ {l p : List Char}, p ∈ splitOnChar sep l → ∀ c ∈ p, c ∈ l := by
  intro l
  induction l with
  | nil =>
    intro p hp c hc
    simp only [splitOnChar, List.mem_singleton] at hp
    rw [hp] at hc
    cases hc
  | cons x xs ih =>
    intro p hp c hc
    simp only [splitOnChar] at hp
    by_cases hx : x = sep
    · rw [if_pos hx] at hp
      rcases List.mem_cons.mp hp with hp | hp
      · rw [hp] at hc; cases hc
      · exact List.mem_cons_of_mem x (ih hp c hc)
    · rw [if_neg hx] at hp
      cases hr : splitOnChar sep xs with
      | nil =>
        rw [hr] at hp
        have hp' : p = [x] := List.mem_singleton.mp hp
        rw [hp'] at hc
        have hc' : c = x := List.mem_singleton.mp hc
        rw [hc']
        exact List.mem_cons_self x xs
      | cons y ys =>
        rw [hr] at hp
        rcases List.mem_cons.mp hp with hp | hp
        · rw [hp] at hc
          rcases List.mem_cons.mp hc with hc | hc
          · rw [hc]; exact List.mem_cons_self x xs
          · exact List.mem_cons_of_mem x
              (ih (by rw [hr]; exact List.mem_cons_self y ys) c hc)
        · exact List.mem_cons_of_mem x
            (ih (by rw [hr]; exact List.mem_cons_of_mem y hp) c hc)

/-- Characters of the two halves of `splitDot` come from the input. -/
theorem splitDot_subset :
    ∀ {part ip dec : List Char}, splitDot part = some (ip, dec) →
      (∀ c ∈ ip, c ∈ part) ∧ ∀ c ∈ dec, c ∈ part := by
  intro part
  induction part with
  | nil => intro ip dec h; exact Option.noConfusion h
  | cons x xs ih =>
    intro ip dec h
    simp only [splitDot] at h
    by_cases hx : x = '.'
    · rw [if_pos hx] at h
      simp only [Option.some.injEq, Prod.mk.injEq] at h
      obtain ⟨hip, hdec⟩ := h
      constructor
      · intro c hc; rw [← hip] at hc; cases hc
      · intro c hc; rw [← hdec] at hc; exact List.mem_cons_of_mem x hc
    · rw [if_neg hx] at h
      cases hs : splitDot xs with
      | none => rw [hs] at h; exact Option.noConfusion h
      | some q =>
        rw [hs] at h
        simp only [Option.map_some', Option.some.injEq, Prod.mk.injEq] at h
        obtain ⟨hip, hdec⟩ := h
        obtain ⟨h1, h2⟩ := ih (show splitDot xs = some (q.1, q.2) by rw [hs])
        constructor
        · intro c hc
          rw [← hip] at hc
          rcases List.mem_cons.mp hc with hc | hc
          · rw [hc]; exact List.mem_cons_self x xs
          · exact List.mem_cons_of_mem x (h1 c hc)
        · intro c hc
          rw [← hdec] at hc
          exact List.mem_cons_of_mem x (h2 c hc)

/-- Characters the last-group formatting emits come from the group or are
`'0'` or `'.'`. -/
theorem formatLast_chars {found : Bool} {part : List Char} {c : Char}
    (hc : c ∈ formatLast found part) : c ∈ part ∨ c.isDigit = true ∨ c = '.' := by
  have horz : ∀ l : List Char, c ∈ orZero (lstrip0 l) → c ∈ l ∨ c.isDigit = true := by
    intro l hm
    unfold orZero at hm
    by_cases he : lstrip0 l = []
    · rw [if_pos he] at hm
      rcases List.mem_singleton.mp hm with rfl
      exact Or.inr (by decide)
    · rw [if_neg he] at hm
      exact Or.inl ((List.dropWhile_sublist _).subset hm)
  unfold formatLast at hc
  cases hs : splitDot part with
  | some pr =>
    rw [hs] at hc
    obtain ⟨hip, hdec⟩ := splitDot_subset (show splitDot part = some (pr.1, pr.2) by rw [hs])
    rcases List.mem_append.mp hc with hc | hc
    · by_cases hf : found = true
      · rw [if_pos hf] at hc
        exact Or.inl (hip c hc)
      · rw [if_neg hf] at hc
        rcases horz pr.1 hc with h | h
        · exact Or.inl (hip c h)
        · exact Or.inr (Or.inl h)
    · rcases List.mem_cons.mp hc with hc | hc
      · exact Or.inr (Or.inr hc)
      · exact Or.inl (hdec c (List.take_subset 3 pr.2 hc))
  | none =>
    rw [hs] at hc
    by_cases hf : found = true
    · rw [if_pos hf] at hc
      exact Or.inl hc
    · rw [if_neg hf] at hc
      rcases horz part hc with h | h
      · exact Or.inl h
      · exact Or.inr (Or.inl h)

/-- Characters of the formatted groups come from the input groups, are
digits, or are `'.'`. -/
theorem formatParts_chars :
    ∀ (parts : List (List Char)) (found : Bool) (out : List (List Char)),
      formatParts found parts = some out →
      ∀ q ∈ out, ∀ c ∈ q, (∃ p ∈ parts, c ∈ p) ∨ c.isDigit = true ∨ c = '.' := by
  intro parts
  induction parts with
  | nil =>
    intro found out h q hq c _
    simp only [formatParts, Option.some.injEq] at h
    rw [← h] at hq
    cases hq
  | cons p ps ih =>
    intro found out h q hq c hcq
    cases ps with
    | nil =>
      simp only [formatParts, Option.some.injEq] at h
      rw [← h] at hq
      rcases List.mem_singleton.mp hq with rfl
      rcases formatLast_chars hcq with h' | h'
      · exact Or.inl ⟨p, List.mem_cons_self p [], h'⟩
      · exact Or.inr h'
    | cons p2 ps2 =>
      simp only [formatParts, bind] at h
      cases hn : parseNatChars p with
      | none => rw [hn] at h; exact Option.noConfusion h
      | some n =>
        rw [hn] at h
        simp only [optBind_some] at h
        by_cases hskip : found = false ∧ n = 0
        · rw [if_pos hskip] at h
          rcases ih found out h q hq c hcq with ⟨p', hp', hcp'⟩ | h'
          · exact Or.inl ⟨p', List.mem_cons_of_mem p hp', hcp'⟩
          · exact Or.inr h'
        · rw [if_neg hskip] at h
          cases hrest : formatParts true (p2 :: ps2) with
          | none => rw [hrest] at h; exact Option.noConfusion h
          | some rest =>
            rw [hrest] at h
            simp only [optBind_some, Option.pure_def, Option.some.injEq] at h
            rw [← h] at hq
            rcases List.mem_cons.mp hq with hq | hq
            · rw [hq] at hcq
              exact Or.inr (Or.inl (toString_nat_digits n c hcq))
            · rcases ih true rest hrest q hq c hcq with ⟨p', hp', hcp'⟩ | h'
              · exact Or.inl ⟨p', List.mem_cons_of_mem p hp', hcp'⟩
              · exact Or.inr h'

/-- Characters of the joined output come from the groups or are `':'`. -/
theorem joinCols_chars :
    ∀ {out : List (List Char)} {c : Char}, c ∈ joinCols out →
      (∃ q ∈ out, c ∈ q) ∨ c = ':' := by
  intro out
  induction out with
  | nil => intro c hc; cases hc
  | cons q qs ih =>
    intro c hc
    cases qs with
    | nil =>
      exact Or.inl ⟨q, List.mem_cons_self q [], hc⟩
    | cons q2 qs2 =>
      rcases List.mem_append.mp hc with hc | hc
      · exact Or.inl ⟨q, List.mem_cons_self q _, hc⟩
      · rcases List.mem_cons.mp hc with hc | hc
        · exact Or.inr hc
        · rcases ih hc with ⟨q', hq', hcq'⟩ | h'
          · exact Or.inl ⟨q', List.mem_cons_of_mem q hq', hcq'⟩
          · exact Or.inr h'

/-- The time formatter stays within the canonical time alphabet: digits,
`':'` and `'.'`. -/
theorem format_time_chars {t s : String} (h : _format_time t = some s)
    (ht : ∀ c ∈ t.data, c.isDigit = true ∨ c = ':' ∨ c = '.') :
    ∀ c ∈ s.data, c.isDigit = true ∨ c = ':' ∨ c = '.' := by
  unfold _format_time at h
  by_cases hd : t.data = []
  · rw [if_pos hd] at h
    simp only [Option.some.injEq] at h
    intro c hc
    rw [← h] at hc
    cases hc
  · rw [if_neg hd] at h
    cases hfp : formatParts false (splitOnChar ':' t.data) with
    | none => rw [hfp] at h; exact Option.noConfusion h
    | some out =>
      rw [hfp] at h
      simp only [Option.map_some', Option.some.injEq] at h
      intro c hc
      have hsd : s.data = joinCols out := by rw [← h]
      rw [hsd] at hc
      rcases joinCols_chars hc with ⟨q, hq, hcq⟩ | hc'
      · rcases formatParts_chars _ _ _ hfp q hq c hcq with ⟨p, hp, hcp⟩ | h' | h'
        · exact ht c (splitOnChar_subset hp c hcp)
        · exact Or.inl h'
        · exact Or.inr (Or.inr h')
      · exact Or.inr (Or.inl hc')

/-- On canonical time characters, the formatter can never produce the
literal placeholder. -/
theorem format_time_ne_noTime {t s : String} (h : _format_time t = some s)
    (ht : ∀ c ∈ t.data, c.isDigit = true ∨ c = ':' ∨ c = '.') :
    s ≠ "No Time" := by
  intro hs
  have hN : ('N' : Char) ∈ s.data := by rw [hs]; decide
  rcases format_time_chars h ht 'N' hN with h' | h' | h' <;> simp at h'

/-! ## The "No Time" display placeholder -/

/-- The per-entry display-time facts at the base processing stage, given
well-formed (nonempty, time-alphabet) lap times. -/
theorem processRace_display_facts {ims : Bool} {distId : String} {race : RawRace}
    {e : CompetitorEntry} (h : processRace ims distId race = some e)
    (hw : ∀ lap ∈ race.laps.getD [], lap.time ≠ "" ∧
          ∀ c ∈ lap.time.data, c.isDigit = true ∨ c = ':' ∨ c = '.') :
    ((e.formatted_total_time = "No Time") ↔ e.total_time = "") ∧
    ((e.total_time = "") ↔ e.laps_count = 0) ∧
    (e.total_time ≠ "" → _format_time e.total_time = some e.formatted_total_time) := by
  obtain ⟨_, _, _, _, hlc, hcase⟩ := processRace_inv h
  rcases hcase with ⟨hnil, htt, hftt⟩ | ⟨hne, htt, hftt⟩
  · refine ⟨?_, ?_, ?_⟩
    · rw [htt, hftt]; simp
    · rw [htt, hlc, hnil]; simp
    · intro hc; exact absurd htt hc
  · obtain ⟨lp, hlp, hmax⟩ := lapMaxTime_mem hne
    have hlp' : lp ∈ race.laps.getD [] := by
      by_cases hb : ims = true ∧ race.laps.getD [] ≠ []
      · rw [if_pos hb] at hlp
        exact List.mem_of_mem_tail hlp
      · rw [if_neg hb] at hlp
        exact hlp
    have hwlp := hw lp hlp'
    have httne : e.total_time ≠ "" := by rw [htt, hmax]; exact hwlp.1
    have hchars : ∀ c ∈ e.total_time.data, c.isDigit = true ∨ c = ':' ∨ c = '.' := by
      rw [htt, hmax]; exact hwlp.2
    refine ⟨?_, ?_, fun _ => hftt⟩
    · constructor
      · intro hNo
        exact absurd hNo (format_time_ne_noTime hftt hchars)
      · intro h0
        exact absurd h0 httne
    · constructor
      · intro h0
        exact absurd h0 httne
      · intro h0
        rw [hlc] at h0
        exact absurd (List.length_eq_zero.mp h0) hne

/-- C9: in the output of the state processor (on well-formed lap times),
a competitor's formatted display time is the literal placeholder
`"No Time"` exactly when the competitor has no qualifying laps — raw
`total_time` is the empty string, equivalently `laps_count = 0` — and is
the time-codec formatting of `total_time` otherwise. -/
theorem no_time_display :
    ∀ (dist : RawDistance) (meta : DistanceMeta) (comps : List (String × CompetitorEntry)),
      processDistance dist = some (meta, comps) →
      (∀ race ∈ distRaces dist, ∀ lap ∈ race.laps.getD [], lap.time ≠ "" ∧
        ∀ c ∈ lap.time.data, c.isDigit = true ∨ c = ':' ∨ c = '.') →
      ∀ p ∈ comps,
        ((p.2.formatted_total_time = "No Time") ↔ p.2.total_time = "") ∧
        ((p.2.total_time = "") ↔ p.2.laps_count = 0) ∧
        (p.2.total_time ≠ "" → _format_time p.2.total_time = some p.2.formatted_total_time) := by
  intro dist meta comps h hw p hp
  obtain ⟨base, fin, hbase, hcore, hcomps⟩ := processDistance_comps h
  have hbaseP : ∀ z ∈ base,
      ((z.formatted_total_time = "No Time") ↔ z.total_time = "") ∧
      ((z.total_time = "") ↔ z.laps_count = 0) ∧
      (z.total_time ≠ "" → _format_time z.total_time = some z.formatted_total_time) := by
    intro z hz
    obtain ⟨race, hrace, hr⟩ := seqMap_mem hbase z hz
    exact processRace_display_facts hr (hw race hrace)
  have hfinP : ∀ r ∈ fin,
      ((r.formatted_total_time = "No Time") ↔ r.total_time = "") ∧
      ((r.total_time = "") ↔ r.laps_count = 0) ∧
      (r.total_time ≠ "" → _format_time r.total_time = some r.formatted_total_time) := by
    intro r hr
    have h1 : core r ∈ fin.map core := List.mem_map_of_mem core hr
    rw [hcore] at h1
    obtain ⟨y, hy, hyc⟩ := List.mem_map.mp h1
    obtain ⟨z, hz, j, hzj⟩ := posAssign_mem hy
    have hz' : z ∈ base := (List.perm_insertionSort rankLE base).mem_iff.mp hz
    have hftt : r.formatted_total_time = z.formatted_total_time := by
      have h2 := congrArg CoreView.formatted_total_time hyc
      have h3 : y.formatted_total_time = z.formatted_total_time := by rw [hzj]
      simpa [core, h3] using h2.symm
    have htt : r.total_time = z.total_time := by
      have h2 := congrArg CoreView.total_time hyc
      have h3 : y.total_time = z.total_time := by rw [hzj]
      simpa [core, h3] using h2.symm
    have hlc : r.laps_count = z.laps_count := by
      have h2 := congrArg CoreView.laps_count hyc
      have h3 : y.laps_count = z.laps_count := by rw [hzj]
      simpa [core, h3] using h2.symm
    rw [hftt, htt, hlc]
    exact hbaseP z hz'
  have hpf : p ∈ fin.map (fun r => (r.id, r)) := mem_dictOf (hcomps ▸ hp)
  obtain ⟨r, hr, hpr⟩ := List.mem_map.mp hpf
  have hp2 : p.2 = r := by rw [← hpr]
  rw [hp2]
  exact hfinP r hr

/-- Witness for `no_time_display` at the concrete mass-start distance. -/
theorem no_time_display_witness :
    (((dictGet ((processDistance dMass).getD (emptyMeta, [])).2 "r1").getD
          emptyEntry).formatted_total_time = "No Time" ↔
      ((dictGet ((processDistance dMass).getD (emptyMeta, [])).2 "r1").getD
          emptyEntry).total_time = "") ∧
    (((dictGet ((processDistance dMass).getD (emptyMeta, [])).2 "r1").getD
          emptyEntry).total_time = "" ↔
      ((dictGet ((processDistance dMass).getD (emptyMeta, [])).2 "r1").getD
          emptyEntry).laps_count = 0) ∧
    (((dictGet ((processDistance dMass).getD (emptyMeta, [])).2 "r1").getD
          emptyEntry).total_time ≠ "" →
      _format_time ((dictGet ((processDistance dMass).getD (emptyMeta, [])).2 "r1").getD
          emptyEntry).total_time =
        some ((dictGet ((processDistance dMass).getD (emptyMeta, [])).2 "r1").getD
          emptyEntry).formatted_total_time) :=
  no_time_display dMass
    ((processDistance dMass).getD (emptyMeta, [])).1
    ((processDistance dMass).getD (emptyMeta, [])).2 (by rfl) (by decide)
    ("r1", (dictGet ((processDistance dMass).getD (emptyMeta, [])).2 "r1").getD emptyEntry)
    (by decide)

/-! ## Ranking order -/

/-- Pairwise relations invariant under position updates survive position
assignment. -/
theorem posAssign_pairwise {R : CompetitorEntry → CompetitorEntry → Prop}
    (hR : ∀ (a b : CompetitorEntry) (i j : Nat),
      R a b → R { a with position := i } { b with position := j }) :
    ∀ {l : List CompetitorEntry} (k : Nat), l.Pairwise R → (posAssign k l).Pairwise R := by
  intro l
  induction l with
  | nil => intro k _; exact List.Pairwise.nil
  | cons r rs ih =>
    intro k hp
    rw [List.pairwise_cons] at hp
    simp only [posAssign]
    rw [List.pairwise_cons]
    constructor
    · intro x hx
      obtain ⟨y, hy, j, rfl⟩ := posAssign_mem hx
      exact hR r y k j (hp.1 y hy)
    · exact ih (k + 1) hp.2

/-- With nonempty lap times, a base entry's total time is empty exactly
when it counts zero laps. -/
theorem processRace_time_empty_iff {ims : Bool} {distId : String} {race : RawRace}
    {e : CompetitorEntry} (h : processRace ims distId race = some e)
    (hw : ∀ lap ∈ race.laps.getD [], lap.time ≠ "") :
    e.total_time = "" ↔ e.laps_count = 0 := by
  obtain ⟨_, _, _, _, hlc, hcase⟩ := processRace_inv h
  rcases hcase with ⟨hnil, htt, _⟩ | ⟨hne, htt, _⟩
  · rw [htt, hlc, hnil]; simp
  · obtain ⟨lp, hlp, hmax⟩ := lapMaxTime_mem hne
    have hlp' : lp ∈ race.laps.getD [] := by
      by_cases hb : ims = true ∧ race.laps.getD [] ≠ []
      · rw [if_pos hb] at hlp
        exact List.mem_of_mem_tail hlp
      · rw [if_neg hb] at hlp
        exact hlp
    constructor
    · intro h0
      rw [htt, hmax] at h0
      exact absurd h0 (hw lp hlp')
    · intro h0
      rw [hlc] at h0
      exact absurd (List.length_eq_zero.mp h0) hne

/-- With unique race ids, the competitor dict is literally the final
entry list keyed by id. -/
theorem processDistance_comps_eq {dist : RawDistance} {meta : DistanceMeta}
    {comps : List (String × CompetitorEntry)}
    (h : processDistance dist = some (meta, comps))
    (hnd : ((distRaces dist).map (fun r => r.id)).Nodup) :
    ∃ (base fin : List CompetitorEntry),
      seqMap (processRace (isMassStart (distRaces dist)) dist.id) (distRaces dist) = some base ∧
      fin.map core = (posAssign 1 (List.insertionSort rankLE base)).map core ∧
      comps = fin.map (fun r => (r.id, r)) := by
  obtain ⟨base, fin, hbase, hcore, hcomps⟩ := processDistance_comps h
  refine ⟨base, fin, hbase, hcore, ?_⟩
  have hbase_ids : base.map (fun r => r.id) = (distRaces dist).map (fun r => r.id) :=
    seqMap_map (fun a b hb => (processRace_inv hb).1) hbase
  have hperm := (List.perm_insertionSort rankLE base).map (fun r : CompetitorEntry => r.id)
  have hproc_ids : (posAssign 1 (List.insertionSort rankLE base)).map (fun r => r.id) =
      (List.insertionSort rankLE base).map (fun r => r.id) :=
    posAssign_map_of_position_free (fun r => r.id) (fun r k => rfl) _ 1
  have hfin_ids : fin.map (fun r => r.id) =
      (posAssign 1 (List.insertionSort rankLE base)).map (fun r => r.id) := by
    calc fin.map (fun r => r.id) = (fin.map core).map (fun c => c.id) := by
          rw [List.map_map]; rfl
      _ = ((posAssign 1 (List.insertionSort rankLE base)).map core).map (fun c => c.id) := by
          rw [hcore]
      _ = (posAssign 1 (List.insertionSort rankLE base)).map (fun r => r.id) := by
          rw [List.map_map]; rfl
  have hfin_nodup : (fin.map (fun r => r.id)).Nodup := by
    rw [hfin_ids, hproc_ids]
    exact hperm.nodup_iff.mpr (by rw [hbase_ids]; exact hnd)
  rw [hcomps]
  apply dictOf_eq_self
  have hkeys : (fin.map (fun r => (r.id, r))).map Prod.fst = fin.map (fun r => r.id) := by
    rw [List.map_map]; rfl
  rw [hkeys]
  exact hfin_nodup

/-- C2: in the ranking step, for every distance (on payloads with unique
race ids and nonempty lap times), competitors are sorted by descending
laps completed then ascending total time (the canonical time-string
order), every competitor lacking a recorded total time is placed strictly
after every competitor that has one, and 1-based positions are assigned
in this order. -/
theorem ranking_order :
    ∀ (dist : RawDistance) (meta : DistanceMeta) (comps : List (String × CompetitorEntry)),
      processDistance dist = some (meta, comps) →
      ((distRaces dist).map (fun r => r.id)).Nodup →
      (∀ race ∈ distRaces dist, ∀ lap ∈ race.laps.getD [], lap.time ≠ "") →
      (comps.map (fun q => q.2)).Pairwise (fun a b =>
        (b.laps_count < a.laps_count ∨
         (a.laps_count = b.laps_count ∧ a.total_time ≠ "" ∧ b.total_time ≠ "" ∧
          a.total_time ≤ b.total_time) ∨
         b.total_time = "") ∧
        (a.total_time = "" → b.total_time = "")) ∧
      comps.map (fun q => q.2.position) = List.range' 1 comps.length := by
  intro dist meta comps h hnd hw
  obtain ⟨base, fin, hbase, hcore, hcomps⟩ := processDistance_comps_eq h hnd
  have hbaseF : ∀ z ∈ base, (z.total_time = "" ↔ z.laps_count = 0) := by
    intro z hz
    obtain ⟨race, hrace, hr⟩ := seqMap_mem hbase z hz
    exact processRace_time_empty_iff hr (hw race hrace)
  have hprocF : ∀ y ∈ posAssign 1 (List.insertionSort rankLE base),
      (y.total_time = "" ↔ y.laps_count = 0) := by
    intro y hy
    obtain ⟨z, hz, j, rfl⟩ := posAssign_mem hy
    have hz' : z ∈ base := (List.perm_insertionSort rankLE base).mem_iff.mp hz
    exact hbaseF z hz'
  have hsorted : (List.insertionSort rankLE base).Pairwise rankLE :=
    List.sorted_insertionSort rankLE base
  have hproc_sorted : (posAssign 1 (List.insertionSort rankLE base)).Pairwise rankLE :=
    posAssign_pairwise (fun a b i j hab => hab) 1 hsorted
  have hproc_claim : (posAssign 1 (List.insertionSort rankLE base)).Pairwise (fun a b =>
      (b.laps_count < a.laps_count ∨
       (a.laps_count = b.laps_count ∧ a.total_time ≠ "" ∧ b.total_time ≠ "" ∧
        a.total_time ≤ b.total_time) ∨
       b.total_time = "") ∧
      (a.total_time = "" → b.total_time = "")) := by
    refine hproc_sorted.imp_of_mem ?_
    intro a b ha hb hab
    have hFa := hprocF a ha
    have hFb := hprocF b hb
    rcases hab with hlt | ⟨heq, hkey⟩
    · constructor
      · exact Or.inl hlt
      · intro ha0
        have : a.laps_count = 0 := hFa.mp ha0
        omega
    · by_cases hb0 : b.total_time = ""
      · exact ⟨Or.inr (Or.inr hb0), fun _ => hb0⟩
      · have hbl : b.laps_count ≠ 0 := fun hc => hb0 (hFb.mpr hc)
        have ha0 : a.total_time ≠ "" := by
          intro hc
          exact hbl (by rw [← heq]; exact hFa.mp hc)
        have hkey' : pyStrLe a.total_time b.total_time = true := by
          unfold rankKeyTime at hkey
          rw [if_neg ha0, if_neg hb0] at hkey
          exact hkey
        exact ⟨Or.inr (Or.inl ⟨heq, ha0, hb0, pyStrLe_iff_le.mp hkey'⟩),
               fun hc => absurd hc ha0⟩
  have hfin_claim : fin.Pairwise (fun a b =>
      (b.laps_count < a.laps_count ∨
       (a.laps_count = b.laps_count ∧ a.total_time ≠ "" ∧ b.total_time ≠ "" ∧
        a.total_time ≤ b.total_time) ∨
       b.total_time = "") ∧
      (a.total_time = "" → b.total_time = "")) := by
    have h1 : ((posAssign 1 (List.insertionSort rankLE base)).map core).Pairwise (fun c d =>
        (d.laps_count < c.laps_count ∨
         (c.laps_count = d.laps_count ∧ c.total_time ≠ "" ∧ d.total_time ≠ "" ∧
          c.total_time ≤ d.total_time) ∨
         d.total_time = "") ∧
        (c.total_time = "" → d.total_time = "")) :=
      List.pairwise_map.mpr hproc_claim
    rw [← hcore] at h1
    exact List.pairwise_map.mp h1
  constructor
  · have hmap : comps.map (fun q => q.2) = fin := by
      rw [hcomps, List.map_map]
      exact List.map_id fin
    rw [hmap]
    exact hfin_claim
  · exact processDistance_positions h hnd

/-- Witness for `ranking_order` at the concrete mass-start distance. -/
theorem ranking_order_witness :
    (((processDistance dMass).getD (emptyMeta, [])).2.map (fun q => q.2)).Pairwise (fun a b =>
      (b.laps_count < a.laps_count ∨
       (a.laps_count = b.laps_count ∧ a.total_time ≠ "" ∧ b.total_time ≠ "" ∧
        a.total_time ≤ b.total_time) ∨
       b.total_time = "") ∧
      (a.total_time = "" → b.total_time = "")) ∧
    ((processDistance dMass).getD (emptyMeta, [])).2.map (fun q => q.2.position) =
      List.range' 1 ((processDistance dMass).getD (emptyMeta, [])).2.length :=
  ranking_order dMass
    ((processDistance dMass).getD (emptyMeta, [])).1
    ((processDistance dMass).getD (emptyMeta, [])).2
    (by rfl) (by decide) (by decide)

/-! ## Grouping characterization -/

/-- Parsed decimal values have positive denominators. -/
theorem parseDecChars_den_pos {l : List Char} {d : PyFloat}
    (h : parseDecChars l = some d) : 0 < d.den := by
  unfold parseDecChars at h
  split at h
  · dsimp only at h
    split at h
    · exact Option.noConfusion h
    · have hd := Option.some.inj h
      rw [← hd]
      norm_num [PyFloat.ofInt]
  · dsimp only at h
    split at h
    · have hd := Option.some.inj h
      rw [← hd]
      positivity
    · exact Option.noConfusion h
  · exact Option.noConfusion h

/-- Parsed durations have positive denominators. -/
theorem parse_seconds_den_pos {t : String} {q : PyFloat}
    (h : _parse_seconds t = some q) : 0 < q.den := by
  unfold _parse_seconds at h
  split at h
  · have hd := Option.some.inj h
    rw [← hd]
    norm_num [PyFloat.ofInt]
  · rcases hsp : splitOnChar ':' t.data with _ | ⟨a, _ | ⟨b, _ | ⟨c, _ | ⟨e, rest2⟩⟩⟩⟩ <;>
      rw [hsp] at h
    · exact Option.noConfusion h
    · exact parseDecChars_den_pos h
    · simp only [bind] at h
      cases h1 : parseNatChars a with
      | none => rw [h1] at h; exact Option.noConfusion h
      | some mm =>
        rw [h1] at h
        simp only [optBind_some] at h
        cases h2 : parseDecChars b with
        | none => rw [h2] at h; exact Option.noConfusion h
        | some ss =>
          rw [h2] at h
          simp only [optBind_some, Option.pure_def, Option.some.injEq] at h
          rw [← h]
          have hpos := parseDecChars_den_pos h2
          simp only [PyFloat.add, PyFloat.ofInt]
          simpa using hpos
    · simp only [bind] at h
      cases h1 : parseNatChars a with
      | none => rw [h1] at h; exact Option.noConfusion h
      | some hh =>
        rw [h1] at h
        simp only [optBind_some] at h
        cases h2 : parseNatChars b with
        | none => rw [h2] at h; exact Option.noConfusion h
        | some mm =>
          rw [h2] at h
          simp only [optBind_some] at h
          cases h3 : parseDecChars c with
          | none => rw [h3] at h; exact Option.noConfusion h
          | some ss =>
            rw [h3] at h
            simp only [optBind_some, Option.pure_def, Option.some.injEq] at h
            rw [← h]
            have hpos := parseDecChars_den_pos h3
            simp only [PyFloat.add, PyFloat.ofInt]
            simpa using hpos
    · exact parseDecChars_den_pos h

/-- Computed time gaps have positive denominators. -/
theorem time_diff_den_pos {a b : String} {d : PyFloat}
    (h : _time_diff a b = some d) : 0 < d.den := by
  unfold _time_diff at h
  split at h
  · have hd := Option.some.inj h
    rw [← hd]
    norm_num [PyFloat.ofInt]
  · simp only [bind] at h
    cases h1 : _parse_seconds a with
    | none => rw [h1] at h; exact Option.noConfusion h
    | some pa =>
      rw [h1] at h
      simp only [optBind_some] at h
      cases h2 : _parse_seconds b with
      | none => rw [h2] at h; exact Option.noConfusion h
      | some pb =>
        rw [h2] at h
        simp only [optBind_some, Option.pure_def, Option.some.injEq] at h
        rw [← h]
        have ha := parse_seconds_den_pos h1
        have hb := parse_seconds_den_pos h2
        simp only [PyFloat.abs, PyFloat.sub]
        exact mul_pos ha hb

/-- The executable float comparison agrees with the rational order on
positive denominators. -/
theorem PyFloat.le_iff_toRat {p q : PyFloat} (hp : 0 < p.den) (hq : 0 < q.den) :
    p.le q = true ↔ p.toRat ≤ q.toRat := by
  unfold PyFloat.le PyFloat.toRat
  rw [decide_eq_true_eq]
  rw [div_le_div_iff₀ (by exact_mod_cast hp) (by exact_mod_cast hq)]
  constructor
  · intro h; exact_mod_cast h
  · intro h; exact_mod_cast h

/-- The code-level append condition is the rational-valued one. -/
theorem clusterOkB_iff {a b : CompetitorEntry} : clusterOkB a b ↔ clusterOk a b := by
  unfold clusterOkB clusterOk
  constructor
  · rintro ⟨hl, d, hd, hle⟩
    refine ⟨hl, d, hd, ?_⟩
    have hpos := time_diff_den_pos hd
    have h2 : (0 : Int) < (PyFloat.ofInt 2).den := by norm_num [PyFloat.ofInt]
    have hq := (PyFloat.le_iff_toRat hpos h2).mp hle
    simpa [PyFloat.toRat, PyFloat.ofInt] using hq
  · rintro ⟨hl, d, hd, hle⟩
    refine ⟨hl, d, hd, ?_⟩
    have hpos := time_diff_den_pos hd
    have h2 : (0 : Int) < (PyFloat.ofInt 2).den := by norm_num [PyFloat.ofInt]
    apply (PyFloat.le_iff_toRat hpos h2).mpr
    simpa [PyFloat.toRat, PyFloat.ofInt] using hle

/-- The head group of the grouping loop is the current group, possibly
extended at its end. -/
theorem buildGroupsAux_head :
    ∀ {l : List CompetitorEntry} {cur : Nat × List CompetitorEntry}
      {gs : List (Nat × List CompetitorEntry)},
      buildGroupsAux cur l = some gs →
      ∃ ext rest, gs = (cur.1, cur.2 ++ ext) :: rest := by
  intro l
  induction l with
  | nil =>
    intro cur gs h
    simp only [buildGroupsAux, Option.some.injEq] at h
    exact ⟨[], [], by rw [← h]; simp⟩
  | cons r rs ih =>
    intro cur gs h
    simp only [buildGroupsAux] at h
    by_cases hl : r.laps_count = cur.1
    · rw [if_pos hl] at h
      simp only [bind] at h
      cases hd : _time_diff (lastTotalTime cur.2) r.total_time with
      | none => rw [hd] at h; exact Option.noConfusion h
      | some d =>
        rw [hd] at h
        simp only [optBind_some] at h
        by_cases hle : d.le (PyFloat.ofInt 2) = true
        · rw [if_pos hle] at h
          obtain ⟨ext, rest, hr⟩ := ih h
          exact ⟨[r] ++ ext, rest, by rw [hr]; simp⟩
        · rw [if_neg hle] at h
          cases hrest : buildGroupsAux (r.laps_count, [r]) rs with
          | none => rw [hrest] at h; exact Option.noConfusion h
          | some rest =>
            rw [hrest] at h
            simp only [optBind_some, Option.pure_def, Option.some.injEq] at h
            exact ⟨[], rest, by rw [← h]; simp⟩
    · rw [if_neg hl] at h
      simp only [bind] at h
      cases hrest : buildGroupsAux (r.laps_count, [r]) rs with
      | none => rw [hrest] at h; exact Option.noConfusion h
      | some rest =>
        rw [hrest] at h
        simp only [optBind_some, Option.pure_def, Option.some.injEq] at h
        exact ⟨[], rest, by rw [← h]; simp⟩

/-- Structure of the groups the grouping loop emits: every group is
nonempty with the group lap count shared by all members, members chained
by the append condition, and consecutive groups separated exactly where
the append condition fails. -/
theorem buildGroupsAux_spec :
    ∀ {l : List CompetitorEntry} {cur : Nat × List CompetitorEntry}
      {gs : List (Nat × List CompetitorEntry)},
      buildGroupsAux cur l = some gs →
      cur.2 ≠ [] →
      (∀ x ∈ cur.2, x.laps_count = cur.1) →
      cur.2.Chain' clusterOkB →
      (∀ g ∈ gs, g.2 ≠ [] ∧ ∀ x ∈ g.2, x.laps_count = g.1) ∧
      (∀ g ∈ gs, g.2.Chain' clusterOkB) ∧
      gs.Chain' (fun g g' => ∀ a b, g.2.getLast? = some a → g'.2.head? = some b →
        ¬ clusterOkB a b) := by
  intro l
  induction l with
  | nil =>
    intro cur gs h hne hlaps hchain
    simp only [buildGroupsAux, Option.some.injEq] at h
    rw [← h]
    refine ⟨?_, ?_, List.chain'_singleton _⟩
    · intro g hg
      have hg' : g = cur := List.mem_singleton.mp hg
      rw [hg']
      exact ⟨hne, hlaps⟩
    · intro g hg
      have hg' : g = cur := List.mem_singleton.mp hg
      rw [hg']
      exact hchain
  | cons r rs ih =>
    intro cur gs h hne hlaps hchain
    simp only [buildGroupsAux] at h
    by_cases hl : r.laps_count = cur.1
    · rw [if_pos hl] at h
      simp only [bind] at h
      cases hd : _time_diff (lastTotalTime cur.2) r.total_time with
      | none => rw [hd] at h; exact Option.noConfusion h
      | some d =>
        rw [hd] at h
        simp only [optBind_some] at h
        by_cases hle : d.le (PyFloat.ofInt 2) = true
        · rw [if_pos hle] at h
          refine ih h (by simp) ?_ ?_
          · intro x hx
            rcases List.mem_append.mp hx with hx | hx
            · exact hlaps x hx
            · have hx' : x = r := List.mem_singleton.mp hx
              rw [hx']
              exact hl
          · rw [List.chain'_append]
            refine ⟨hchain, List.chain'_singleton r, ?_⟩
            intro a ha b hb
            have ha' : cur.2.getLast? = some a := ha
            have hb' : b = r := (show r = b by simpa using hb).symm
            have haMem : a ∈ cur.2 := by
              obtain ⟨ys, hys⟩ := List.getLast?_eq_some_iff.mp ha'
              rw [hys]
              exact List.mem_append_right ys (List.mem_cons_self a [])
            have hlast : lastTotalTime cur.2 = a.total_time := by
              unfold lastTotalTime
              rw [ha']
            rw [hb']
            refine ⟨hl.trans (hlaps a haMem).symm, d, ?_, hle⟩
            rw [← hlast]
            exact hd
        · rw [if_neg hle] at h
          cases hrest : buildGroupsAux (r.laps_count, [r]) rs with
          | none => rw [hrest] at h; exact Option.noConfusion h
          | some rest =>
            rw [hrest] at h
            simp only [optBind_some, Option.pure_def, Option.some.injEq] at h
            rw [← h]
            obtain ⟨hA, hB, hC⟩ := ih hrest (by simp)
              (by intro x hx
                  have hx' : x = r := List.mem_singleton.mp hx
                  rw [hx'])
              (List.chain'_singleton r)
            refine ⟨?_, ?_, ?_⟩
            · intro g hg
              rcases List.mem_cons.mp hg with hg | hg
              · rw [hg]; exact ⟨hne, hlaps⟩
              · exact hA g hg
            · intro g hg
              rcases List.mem_cons.mp hg with hg | hg
              · rw [hg]; exact hchain
              · exact hB g hg
            · rw [List.chain'_cons']
              refine ⟨?_, hC⟩
              intro g' hg' a b ha hb hcl
              obtain ⟨ext, rest2, hrest2⟩ := buildGroupsAux_head hrest
              rw [hrest2] at hg'
              have hg'' : g' = (r.laps_count, [r] ++ ext) := (show (r.laps_count, [r] ++ ext) = g' by simpa using hg').symm
              rw [hg''] at hb
              have hb' : b = r := (show r = b by simpa using hb).symm
              have hlast : lastTotalTime cur.2 = a.total_time := by
                unfold lastTotalTime
                rw [ha]
              rcases hcl with ⟨_, d', hd', hle'⟩
              rw [hb', ← hlast, hd] at hd'
              have hdd : d = d' := Option.some.inj hd'
              exact hle (hdd ▸ hle')
    · rw [if_neg hl] at h
      simp only [bind] at h
      cases hrest : buildGroupsAux (r.laps_count, [r]) rs with
      | none => rw [hrest] at h; exact Option.noConfusion h
      | some rest =>
        rw [hrest] at h
        simp only [optBind_some, Option.pure_def, Option.some.injEq] at h
        rw [← h]
        obtain ⟨hA, hB, hC⟩ := ih hrest (by simp)
          (by intro x hx
              have hx' : x = r := List.mem_singleton.mp hx
              rw [hx'])
          (List.chain'_singleton r)
        refine ⟨?_, ?_, ?_⟩
        · intro g hg
          rcases List.mem_cons.mp hg with hg | hg
          · rw [hg]; exact ⟨hne, hlaps⟩
          · exact hA g hg
        · intro g hg
          rcases List.mem_cons.mp hg with hg | hg
          · rw [hg]; exact hchain
          · exact hB g hg
        · rw [List.chain'_cons']
          refine ⟨?_, hC⟩
          intro g' hg' a b ha hb hcl
          obtain ⟨ext, rest2, hrest2⟩ := buildGroupsAux_head hrest
          rw [hrest2] at hg'
          have hg'' : g' = (r.laps_count, [r] ++ ext) := (show (r.laps_count, [r] ++ ext) = g' by simpa using hg').symm
          rw [hg''] at hb
          have hb' : b = r := (show r = b by simpa using hb).symm
          have haMem : a ∈ cur.2 := by
            obtain ⟨ys, hys⟩ := List.getLast?_eq_some_iff.mp ha
            rw [hys]
            exact List.mem_append_right ys (List.mem_cons_self a [])
          rcases hcl with ⟨hll, _⟩
          rw [hb'] at hll
          exact hl (hll.trans (hlaps a haMem))

/-- C7: in mass-start standings grouping, among the competitors with no
finished rank and a recorded time taken in ranked order, a new cluster
starts exactly when the lap count differs from the current cluster or the
time gap to the cluster's most recent member exceeds 2.0 seconds, and
otherwise the competitor is appended: the produced groups partition the
input, members within a group share the group's lap count and are chained
by the at-most-2.0-second condition, and consecutive groups break it.  In
particular total times 10.0 s, 10.5 s and 13.0 s produce one cluster of
the first two and a new cluster for the third. -/
theorem grouping_clusters :
    (∀ (l : List CompetitorEntry) (gs : List (Nat × List CompetitorEntry)),
      buildGroups l = some gs →
      (gs.map (fun g => g.2)).flatten = l ∧
      (∀ g ∈ gs, g.2 ≠ [] ∧ ∀ x ∈ g.2, x.laps_count = g.1) ∧
      (∀ g ∈ gs, g.2.Chain' clusterOk) ∧
      gs.Chain' (fun g g' => ∀ a b, g.2.getLast? = some a → g'.2.head? = some b →
        ¬ clusterOk a b)) ∧
    ((_process rawMass).getD emptyState).competitors.map
      (fun p => p.2.map (fun q => (q.2.total_time, q.2.group_number))) =
      [[("10.0", some 1), ("10.5", some 1), ("13.0", some 2)]] := by
  constructor
  · intro l gs h
    refine ⟨buildGroups_flatten h, ?_⟩
    cases l with
    | nil =>
      simp only [buildGroups, Option.some.injEq] at h
      rw [← h]
      exact ⟨fun g hg => absurd hg (List.not_mem_nil g),
             fun g hg => absurd hg (List.not_mem_nil g), List.chain'_nil⟩
    | cons r rs =>
      have h' : buildGroupsAux (r.laps_count, [r]) rs = some gs := h
      obtain ⟨hA, hB, hC⟩ := buildGroupsAux_spec h' (by simp)
        (by intro x hx
            have hx' : x = r := List.mem_singleton.mp hx
            rw [hx'])
        (List.chain'_singleton r)
      refine ⟨hA, ?_, ?_⟩
      · intro g hg
        exact List.Chain'.imp (fun a b hab => clusterOkB_iff.mp hab) (hB g hg)
      · exact List.Chain'.imp
          (fun g g' hgg' a b ha hb hcl => hgg' a b ha hb (clusterOkB_iff.mpr hcl)) hC
  · decide

/-- Witness for `grouping_clusters`: two one-lap competitors at 10.0 s
and 13.0 s form two separate clusters (the gap is 3.0 s). -/
theorem grouping_clusters_witness :
    (([((1 : Nat), [entryA]), ((1 : Nat), [entryB])].map
        (fun g : Nat × List CompetitorEntry => g.2)).flatten = [entryA, entryB]) ∧
    (∀ g ∈ [((1 : Nat), [entryA]), ((1 : Nat), [entryB])],
      g.2 ≠ [] ∧ ∀ x ∈ g.2, x.laps_count = g.1) ∧
    (∀ g ∈ [((1 : Nat), [entryA]), ((1 : Nat), [entryB])], g.2.Chain' clusterOk) ∧
    ([((1 : Nat), [entryA]), ((1 : Nat), [entryB])] :
        List (Nat × List CompetitorEntry)).Chain'
      (fun g g' => ∀ a b, g.2.getLast? = some a → g'.2.head? = some b →
        ¬ clusterOk a b) :=
  grouping_clusters.1 [entryA, entryB] [((1 : Nat), [entryA]), ((1 : Nat), [entryB])] (by rfl)

/-! ## Time formatter: stripping, truncation, collapse -/

/-- Splitting a list that starts with a separator-free prefix. -/
theorem splitOnChar_append_sep {sep : Char} :
    ∀ {g : List Char} (rest : List Char), sep ∉ g →
      splitOnChar sep (g ++ sep :: rest) = g :: splitOnChar sep rest := by
  intro g
  induction g with
  | nil =>
    intro rest _
    simp [splitOnChar]
  | cons c cs ih =>
    intro rest hsep
    have hc : c ≠ sep := fun hc => hsep (hc ▸ List.mem_cons_self c cs)
    have hcs : sep ∉ cs := fun hm => hsep (List.mem_cons_of_mem c hm)
    show splitOnChar sep (c :: (cs ++ sep :: rest)) = (c :: cs) :: splitOnChar sep rest
    rw [show splitOnChar sep (c :: (cs ++ sep :: rest)) =
        (if c = sep then [] :: splitOnChar sep (cs ++ sep :: rest)
         else match splitOnChar sep (cs ++ sep :: rest) with
              | y :: ys => (c :: y) :: ys
              | [] => [[c]]) from rfl]
    rw [ih rest hcs, if_neg hc]

/-- Splitting a separator-free list yields a single group. -/
theorem splitOnChar_no_sep {sep : Char} :
    ∀ {l : List Char}, sep ∉ l → splitOnChar sep l = [l] := by
  intro l
  induction l with
  | nil => intro _; rfl
  | cons c cs ih =>
    intro hsep
    have hc : c ≠ sep := fun hc => hsep (hc ▸ List.mem_cons_self c cs)
    have hcs : sep ∉ cs := fun hm => hsep (List.mem_cons_of_mem c hm)
    simp only [splitOnChar, ih hcs, if_neg hc]

/-- Splitting at the first dot after a dot-free prefix. -/
theorem splitDot_append_dot :
    ∀ {ip : List Char} (dec : List Char), ('.' : Char) ∉ ip →
      splitDot (ip ++ '.' :: dec) = some (ip, dec) := by
  intro ip
  induction ip with
  | nil => intro dec _; simp [splitDot]
  | cons c cs ih =>
    intro dec hdot
    have hc : c ≠ '.' := fun hc => hdot (hc ▸ List.mem_cons_self c cs)
    have hcs : ('.' : Char) ∉ cs := fun hm => hdot (List.mem_cons_of_mem c hm)
    simp [splitDot, if_neg hc, ih dec hcs]

/-- A dot-free group has no fractional split. -/
theorem splitDot_eq_none :
    ∀ {l : List Char}, ('.' : Char) ∉ l → splitDot l = none := by
  intro l
  induction l with
  | nil => intro _; rfl
  | cons c cs ih =>
    intro hdot
    have hc : c ≠ '.' := fun hc => hdot (hc ▸ List.mem_cons_self c cs)
    have hcs : ('.' : Char) ∉ cs := fun hm => hdot (List.mem_cons_of_mem c hm)
    simp [splitDot, if_neg hc, ih hcs]

/-- The numeric value of an all-zero digit group is zero. -/
theorem natOfDigits_zeros :
    ∀ {g : List Char}, (∀ c ∈ g, c = '0') → natOfDigits g = 0 := by
  have aux : ∀ (g : List Char), (∀ c ∈ g, c = '0') →
      g.foldl (fun a c => a * 10 + (c.toNat - '0'.toNat)) 0 = 0 := by
    intro g
    induction g with
    | nil => intro _; rfl
    | cons c cs ih =>
      intro hz
      have hc : c = '0' := hz c (List.mem_cons_self c cs)
      rw [List.foldl_cons, hc]
      exact ih (fun c' hc' => hz c' (List.mem_cons_of_mem c hc'))
  intro g hz
  exact aux g hz

/-- Python `int` of a nonempty all-zero group is zero. -/
theorem parseNatChars_zeros {g : List Char} (hne : g ≠ []) (hz : ∀ c ∈ g, c = '0') :
    parseNatChars g = some 0 := by
  have hall : g.all Char.isDigit = true := by
    rw [List.all_eq_true]
    intro c hc
    rw [hz c hc]
    decide
  unfold parseNatChars
  rw [if_pos ⟨hne, hall⟩, natOfDigits_zeros hz]

/-- Left-stripping zeros empties an all-zero group. -/
theorem lstrip0_zeros {g : List Char} (hz : ∀ c ∈ g, c = '0') : lstrip0 g = [] := by
  unfold lstrip0
  rw [List.dropWhile_eq_nil_iff]
  intro c hc
  rw [hz c hc]
  decide

/-- The split never returns the empty list of groups. -/
theorem splitOnChar_ne_nil {sep : Char} : ∀ (l : List Char), splitOnChar sep l ≠ [] := by
  intro l
  cases l with
  | nil => simp [splitOnChar]
  | cons x xs =>
    simp only [splitOnChar]
    by_cases hx : x = sep
    · rw [if_pos hx]; simp
    · rw [if_neg hx]
      cases hr : splitOnChar sep xs with
      | nil => simp
      | cons y ys => simp

/-- Unfolding equation of `_format_time` on an explicit character list. -/
theorem format_time_mk (l : List Char) :
    _format_time (String.mk l) =
      if l = [] then some ""
      else (formatParts false (splitOnChar ':' l)).map (fun ps => String.mk (joinCols ps)) := rfl

/-- Unfolding equation of `formatParts` on a non-last group. -/
theorem formatParts_cons_cons (found : Bool) (p q : List Char) (qs : List (List Char)) :
    formatParts found (p :: q :: qs) =
      Option.bind (parseNatChars p) (fun n =>
        if found = false ∧ n = 0 then formatParts found (q :: qs)
        else Option.bind (formatParts true (q :: qs))
               (fun rest => some ((toString n).data :: rest))) := rfl

/-- A leading all-zero colon group is parsed to `0` and skipped, leaving the
format of the remaining groups unchanged. -/
theorem format_time_strip_zero_group {g rest : List Char} (hne : g ≠ [])
    (hz : ∀ c ∈ g, c = '0') (hrest : rest ≠ []) :
    _format_time (String.mk (g ++ ':' :: rest)) = _format_time (String.mk rest) := by
  have hcol : (':' : Char) ∉ g := fun hm => absurd (hz _ hm) (by decide)
  have hne2 : g ++ ':' :: rest ≠ [] := by simp
  rw [format_time_mk, format_time_mk, if_neg hne2, if_neg hrest,
    splitOnChar_append_sep rest hcol]
  congr 1
  cases hsp : splitOnChar ':' rest with
  | nil => exact absurd hsp (splitOnChar_ne_nil rest)
  | cons q qs =>
    rw [formatParts_cons_cons, parseNatChars_zeros hne hz]
    simp

/-- The last group with a decimal point: the integer part is stripped of
leading zeros (replaced by `"0"` when empty) and the fraction is truncated
to three digits. -/
theorem format_time_last_dot {ip dec : List Char} (hdot : ('.' : Char) ∉ ip)
    (hc1 : (':' : Char) ∉ ip) (hc2 : (':' : Char) ∉ dec) :
    _format_time (String.mk (ip ++ '.' :: dec)) =
      some (String.mk (orZero (lstrip0 ip) ++ '.' :: dec.take 3)) := by
  have hnz : ip ++ '.' :: dec ≠ [] := by simp
  have hcol : (':' : Char) ∉ ip ++ '.' :: dec := by
    intro hm
    rcases List.mem_append.mp hm with h | h
    · exact hc1 h
    · rcases List.mem_cons.mp h with h | h
      · exact absurd h (by decide)
      · exact hc2 h
  have hform : formatLast false (ip ++ '.' :: dec) =
      orZero (lstrip0 ip) ++ '.' :: dec.take 3 := by
    unfold formatLast
    rw [splitDot_append_dot dec hdot]
    show (if false = true then ip else orZero (lstrip0 ip)) ++ '.' :: dec.take 3 = _
    rw [if_neg (by decide)]
  rw [format_time_mk, if_neg hnz, splitOnChar_no_sep hcol]
  show (some [formatLast false (ip ++ '.' :: dec)]).map (fun ps => String.mk (joinCols ps)) = _
  rw [hform]
  rfl

/-- A nonempty all-zero group with no decimal point collapses to `"0"`. -/
theorem format_time_all_zero_plain {l : List Char} (hne : l ≠ [])
    (hz : ∀ c ∈ l, c = '0') : _format_time (String.mk l) = some "0" := by
  have hcol : (':' : Char) ∉ l := fun hm => absurd (hz _ hm) (by decide)
  have hdot : ('.' : Char) ∉ l := fun hm => absurd (hz _ hm) (by decide)
  have hfl : formatLast false l = ['0'] := by
    unfold formatLast
    rw [splitDot_eq_none hdot]
    show (if false = true then l else orZero (lstrip0 l)) = ['0']
    rw [if_neg (by decide), lstrip0_zeros hz]
    rfl
  rw [format_time_mk, if_neg hne, splitOnChar_no_sep hcol]
  show (some [formatLast false l]).map (fun ps => String.mk (joinCols ps)) = some "0"
  rw [hfl]
  rfl

/-- C6 counterexample: every colon group of `"00:00:00.000"` is zero-valued,
yet the formatter yields `"0.000"`, not the claimed collapse to `"0"`: when
the final group carries a decimal point the truncated fraction is kept. -/
theorem format_time_collapse_cex :
    _format_time "00:00:00.000" = some "0.000" ∧ ("0.000" : String) ≠ "0" :=
  ⟨by decide, by decide⟩

/-- C6 (amended): the time formatter yields empty output for empty input,
strips each leading all-zero colon-separated group, and on a final group with
a decimal point strips leading zeros of the integer part (restoring `"0"`
when it empties) while truncating the fraction to three digits — so an
all-zero input collapses to the bare `"0"` only when it has no decimal
point; in particular `"00:01:02.5000000"` normalizes to `"1:02.500"` and
`"00:00:00.000"` yields `"0.000"`, not `"0"`. -/
theorem format_time_normalizes :
    _format_time "" = some "" ∧
    (∀ (g rest : List Char), g ≠ [] → (∀ c ∈ g, c = '0') → rest ≠ [] →
      _format_time (String.mk (g ++ ':' :: rest)) = _format_time (String.mk rest)) ∧
    (∀ (ip dec : List Char), ('.' : Char) ∉ ip → (':' : Char) ∉ ip → (':' : Char) ∉ dec →
      _format_time (String.mk (ip ++ '.' :: dec)) =
        some (String.mk (orZero (lstrip0 ip) ++ '.' :: dec.take 3))) ∧
    (∀ (l : List Char), l ≠ [] → (∀ c ∈ l, c = '0') →
      _format_time (String.mk l) = some "0") ∧
    _format_time "00:01:02.5000000" = some "1:02.500" ∧
    _format_time "00:00:00.000" = some "0.000" := by
  refine ⟨by decide, ?_, ?_, ?_, by decide, by decide⟩
  · intro g rest hne hz hrest
    exact format_time_strip_zero_group hne hz hrest
  · intro ip dec h1 h2 h3
    exact format_time_last_dot h1 h2 h3
  · intro l hne hz
    exact format_time_all_zero_plain hne hz

/-- The amended formatter facts instantiated at the concrete groups `"00"`
and `"5"`. -/
theorem format_time_normalizes_witness :
    _format_time (String.mk (['0', '0'] ++ ':' :: ['5'])) = _format_time (String.mk ['5']) :=
  format_time_normalizes.2.1 ['0', '0'] ['5'] (by decide) (by decide) (by decide)

/-! ## Diff engine: what is emitted -/

/-- Unfolding equation of the inner diff loop. -/
theorem diffComps_cons (pdc : List (String × CompetitorEntry)) (rid0 : String)
    (c0 : CompetitorEntry) (qs : List (String × CompetitorEntry)) :
    diffComps pdc ((rid0, c0) :: qs) =
      if dictGet pdc rid0 ≠ some c0 then c0 :: diffComps pdc qs
      else diffComps pdc qs := rfl

/-- The inner diff loop emits exactly the entries that differ from the
previous snapshot's entry for the same id (including entries whose id is
absent there). -/
theorem diffComps_mem (pdc : List (String × CompetitorEntry)) :
    ∀ (l : List (String × CompetitorEntry)) (c : CompetitorEntry),
      c ∈ diffComps pdc l ↔ ∃ rid, (rid, c) ∈ l ∧ dictGet pdc rid ≠ some c := by
  intro l
  induction l with
  | nil => intro c; simp [diffComps]
  | cons q qs ih =>
    intro c
    rcases q with ⟨rid0, c0⟩
    rw [diffComps_cons]
    by_cases h : dictGet pdc rid0 ≠ some c0
    · rw [if_pos h]
      constructor
      · intro hc
        rcases List.mem_cons.mp hc with hc | hc
        · subst hc
          exact ⟨rid0, List.mem_cons_self _ _, h⟩
        · rcases (ih c).mp hc with ⟨rid, hmem, hne⟩
          exact ⟨rid, List.mem_cons_of_mem _ hmem, hne⟩
      · rintro ⟨rid, hmem, hne⟩
        rcases List.mem_cons.mp hmem with heq | hmem
        · have hc : c = c0 := congrArg Prod.snd heq
          rw [hc]
          exact List.mem_cons_self _ _
        · exact List.mem_cons_of_mem _ ((ih c).mpr ⟨rid, hmem, hne⟩)
    · rw [if_neg h]
      push_neg at h
      constructor
      · intro hc
        rcases (ih c).mp hc with ⟨rid, hmem, hne⟩
        exact ⟨rid, List.mem_cons_of_mem _ hmem, hne⟩
      · rintro ⟨rid, hmem, hne⟩
        rcases List.mem_cons.mp hmem with heq | hmem
        · have h1 : rid = rid0 := congrArg Prod.fst heq
          have h2 : c = c0 := congrArg Prod.snd heq
          rw [h1, h2] at hne
          exact absurd h hne
        · exact (ih c).mpr ⟨rid, hmem, hne⟩

/-- Unfolding equation of the outer diff loop. -/
theorem diffAux_cons (pd : List (String × DistanceMeta))
    (pc cc : List (String × List (String × CompetitorEntry)))
    (p : String × DistanceMeta) (ps : List (String × DistanceMeta)) :
    diffAux pd pc cc (p :: ps) =
      ((if dictGet pd p.1 ≠ some p.2 then p.2 :: (diffAux pd pc cc ps).1
        else (diffAux pd pc cc ps).1),
       diffComps ((dictGet pc p.1).getD []) ((dictGet cc p.1).getD [])
         ++ (diffAux pd pc cc ps).2) := rfl

/-- Competitor updates of the outer diff loop: exactly the per-distance
inner-loop emissions, over the distances of the current state. -/
theorem diffAux_mem (pd : List (String × DistanceMeta))
    (pc cc : List (String × List (String × CompetitorEntry))) :
    ∀ (ds : List (String × DistanceMeta)) (c : CompetitorEntry),
      c ∈ (diffAux pd pc cc ds).2 ↔
        ∃ p ∈ ds, c ∈ diffComps ((dictGet pc p.1).getD []) ((dictGet cc p.1).getD []) := by
  intro ds
  induction ds with
  | nil => intro c; simp [diffAux]
  | cons p ps ih =>
    intro c
    rw [diffAux_cons]
    constructor
    · intro hc
      rcases List.mem_append.mp hc with hc | hc
      · exact ⟨p, List.mem_cons_self _ _, hc⟩
      · rcases (ih c).mp hc with ⟨p', hmem, hc'⟩
        exact ⟨p', List.mem_cons_of_mem _ hmem, hc'⟩
    · rintro ⟨p', hmem, hc'⟩
      rcases List.mem_cons.mp hmem with heq | hmem
      · subst heq
        exact List.mem_append.mpr (Or.inl hc')
      · exact List.mem_append.mpr (Or.inr ((ih c).mpr ⟨p', hmem, hc'⟩))

/-- C1 counterexample: the competitor `r1` exists in the previous snapshot
and its current update carries no recorded time (`total_time = ""`), yet
`_diff` still emits it — the claimed default-on suppression policy does not
exist in the code, which emits every changed entry unconditionally. -/
theorem diff_no_suppression_cex :
    (dictGet ((dictGet ((_process (rawLane "Bob")).getD emptyState).competitors "d1").getD [])
        "r1").isSome = true ∧
    ((_diff (_process (rawLane "Bob")) ((_process (rawLane "Alice")).getD emptyState)).2.map
        (fun c => (c.id, c.total_time))) = [("r1", "")] :=
  ⟨by decide, by decide⟩

/-- C1 (amended): the Diff Engine has no suppression policy at all.  A
competitor update is emitted exactly when its entry differs from the
previous snapshot's entry for the same id — so a first appearance (id
absent from the previous snapshot) is always announced, and a changed
entry that carries no recorded time is announced as well even when the id
already existed in the previous snapshot. -/
theorem diff_emits_every_change :
    ∀ (prev : Option ProcessedState) (curr : ProcessedState) (c : CompetitorEntry),
      c ∈ (_diff prev curr).2 ↔
        ∃ p ∈ curr.distances, ∃ rid,
          (rid, c) ∈ (dictGet curr.competitors p.1).getD [] ∧
          dictGet ((dictGet ((prev.map (fun s => s.competitors)).getD []) p.1).getD []) rid
            ≠ some c := by
  intro prev curr c
  have h1 : (_diff prev curr).2 =
      (diffAux ((prev.map (fun s => s.distances)).getD [])
        ((prev.map (fun s => s.competitors)).getD [])
        curr.competitors curr.distances).2 := by
    cases prev <;> rfl
  rw [h1, diffAux_mem]
  constructor
  · rintro ⟨p, hmem, hc⟩
    rcases (diffComps_mem _ _ c).mp hc with ⟨rid, hrid, hne⟩
    exact ⟨p, hmem, rid, hrid, hne⟩
  · rintro ⟨p, hmem, rid, hrid, hne⟩
    exact ⟨p, hmem, (diffComps_mem _ _ c).mpr ⟨rid, hrid, hne⟩⟩

/-- The amended diff characterization instantiated on the concrete states:
the no-time competitor `r1`, already present in the previous snapshot, is
emitted because its entry changed. -/
theorem diff_emits_every_change_witness :
    (dictGet ((dictGet ((_process (rawLane "Alice")).getD emptyState).competitors "d1").getD [])
        "r1").getD emptyEntry
      ∈ (_diff (_process (rawLane "Bob")) ((_process (rawLane "Alice")).getD emptyState)).2 :=
  (diff_emits_every_change (_process (rawLane "Bob"))
      ((_process (rawLane "Alice")).getD emptyState) _).mpr
    ⟨("d1", (dictGet ((_process (rawLane "Alice")).getD emptyState).distances "d1").getD emptyMeta),
     by decide, "r1", by decide, by decide⟩
